import Mathlib

/-!
Shallow embedding of the AOE critical-path engine of `bst_mcp_server`
(`aoe_graph.py`, holiday data from `holiday_util.py`), together with proofs
settling the frozen claims about it.

Python dictionaries are modelled as association lists over `String` keys
(`alookup` / `setk` give dict read / write with first-match semantics),
`defaultdict` reads as `lookupD` with the corresponding default, numeric
durations as `ℚ`, fallible code as `Except String`.  The single uncaught
runtime error reachable inside `add_edges` (adding `None` to an `int`)
is modelled as the `Except.error` case.
-/

set_option maxHeartbeats 1600000

namespace AoeSpec

/-! ## Association-list model of Python dicts -/

def alookup {β : Type} : List (String × β) → String → Option β
  | [], _ => none
  | p :: rest, k => if p.1 = k then some p.2 else alookup rest k

def lookupD {β : Type} (m : List (String × β)) (k : String) (d : β) : β :=
  (alookup m k).getD d

/-- Python `m[k] = v`: overwrite in place if the key exists, else append. -/
def setk {β : Type} : List (String × β) → String → β → List (String × β)
  | [], k, v => [(k, v)]
  | p :: rest, k, v => if p.1 = k then (k, v) :: rest else p :: setk rest k v

/-! ## Dates and the duration resolver (`calculate_task_duration`) -/

structure Date where
  year : Nat
  month : Nat
  day : Nat
deriving DecidableEq, Repr

/-- `datetime` comparison: lexicographic on (year, month, day). -/
def Date.le (a b : Date) : Bool :=
  if a.year ≠ b.year then decide (a.year < b.year)
  else if a.month ≠ b.month then decide (a.month < b.month)
  else decide (a.day ≤ b.day)

/-- Python `max(a, b)` on dates: returns the first argument on ties. -/
def maxD (a b : Date) : Date := if Date.le b a then a else b

def isLeap (y : Nat) : Bool := (y % 4 = 0 && y % 100 ≠ 0) || y % 400 = 0

def daysInMonth (y m : Nat) : Nat :=
  if m = 2 then (if isLeap y then 29 else 28)
  else if m = 4 ∨ m = 6 ∨ m = 9 ∨ m = 11 then 30
  else 31

def monthOffset : Nat → Nat
  | 1 => 0 | 2 => 31 | 3 => 59 | 4 => 90 | 5 => 120 | 6 => 151
  | 7 => 181 | 8 => 212 | 9 => 243 | 10 => 273 | 11 => 304 | 12 => 334
  | _ => 0

/-- Rata-die day number (0001-01-01 ↦ 1), proleptic Gregorian calendar. -/
def rdOf (d : Date) : Nat :=
  let a := d.year - 1
  365 * a + a / 4 + a / 400 - a / 100 + monthOffset d.month
    + (if 2 < d.month ∧ isLeap d.year then 1 else 0) + d.day

/-- `datetime.weekday()`: Monday = 0 … Sunday = 6. -/
def weekday (d : Date) : Nat := (rdOf d + 6) % 7

/-- The fixed mainland-China holiday set of `HolidayUtil._load_holidays`. -/
def holidaySet : List String :=
  ["2024-01-01",
   "2024-02-10", "2024-02-11", "2024-02-12", "2024-02-13", "2024-02-14",
   "2024-02-15", "2024-02-16",
   "2024-04-04", "2024-04-05", "2024-04-06",
   "2024-05-01", "2024-05-02", "2024-05-03", "2024-05-04",
   "2024-06-08", "2024-06-09", "2024-06-10",
   "2024-09-15", "2024-09-16", "2024-09-17",
   "2024-10-01", "2024-10-02", "2024-10-03", "2024-10-04", "2024-10-05",
   "2024-10-06",
   "2025-01-01",
   "2025-01-28", "2025-01-29", "2025-01-30", "2025-01-31", "2025-02-01",
   "2025-02-02", "2025-02-03",
   "2025-04-04", "2025-04-05", "2025-04-06",
   "2025-05-01", "2025-05-02", "2025-05-03",
   "2025-06-07", "2025-06-08", "2025-06-09",
   "2025-09-15", "2025-09-16", "2025-09-17",
   "2025-10-01", "2025-10-02", "2025-10-03", "2025-10-04", "2025-10-05",
   "2025-10-06", "2025-10-07"]

def isHoliday (s : String) : Bool := holidaySet.contains s

def padNum (w n : Nat) : String :=
  let s := toString n
  if s.length < w then String.mk (List.replicate (w - s.length) '0') ++ s else s

/-- `current.strftime("%Y-%m-%d")`. -/
def fmtDate (d : Date) : String :=
  padNum 4 d.year ++ "-" ++ padNum 2 d.month ++ "-" ++ padNum 2 d.day

/-- `current += timedelta(days=1)` on a valid calendar date. -/
def nextDay (d : Date) : Date :=
  if d.day < daysInMonth d.year d.month then ⟨d.year, d.month, d.day + 1⟩
  else if d.month < 12 then ⟨d.year, d.month + 1, 1⟩
  else ⟨d.year + 1, 1, 1⟩

def isWorkday (d : Date) : Bool := weekday d < 5 && ! isHoliday (fmtDate d)

/-- The working-day counting loop of `calculate_task_duration` Step 3.
The fuel argument of `countWorkdaysGo` is the exact number of loop
iterations (`rdOf e + 1 - rdOf s`), so the recursion is structural while
matching the Python `while current <= task_end` loop on all valid dates. -/
def countWorkdaysGo : Nat → Date → Date → Nat
  | 0, _, _ => 0
  | fuel + 1, cur, te =>
    if Date.le cur te then
      (if isWorkday cur then 1 else 0) + countWorkdaysGo fuel (nextDay cur) te
    else 0

def countWorkdays (s e : Date) : Nat := countWorkdaysGo (rdOf e + 1 - rdOf s) s e

/-- Splitting a character list on a single separator character (the
behaviour of Python `str.split(sep)` for the one-character separators
`"-"` and `"T"` used by `parse_date`). -/
def splitOnChar (c : Char) : List Char → List (List Char)
  | [] => [[]]
  | x :: xs =>
    match splitOnChar c xs with
    | [] => if x = c then [[], []] else [[x]]
    | y :: ys => if x = c then [] :: y :: ys else (x :: y) :: ys

/-- The numeric value of an all-digit character sequence, `none` otherwise
(the digit-group matching done by `strptime`). -/
def digitsVal? (l : List Char) : Option Nat :=
  if l ≠ [] ∧ l.all Char.isDigit then
    some (l.foldl (fun a c => a * 10 + (c.toNat - 48)) 0)
  else none

/-- `strptime(date_str.split("T")[0], "%Y-%m-%d")`: `%Y` matches exactly four
digits, `%m` / `%d` one or two, and `datetime` validates the calendar date
(`ValueError` on failure is modelled as `none`). -/
def parseYMD (s : String) : Option Date :=
  match splitOnChar '-' s.data with
  | [ys, ms, ds] =>
    if ys.length = 4 ∧ ms.length ≤ 2 ∧ ds.length ≤ 2 then
      match digitsVal? ys, digitsVal? ms, digitsVal? ds with
      | some y, some m, some d =>
        if 1 ≤ y ∧ 1 ≤ m ∧ m ≤ 12 ∧ 1 ≤ d ∧ d ≤ daysInMonth y m then
          some ⟨y, m, d⟩
        else none
      | _, _, _ => none
    else none
  | _ => none

/-- `parse_date` of `calculate_task_duration`: falsy input gives `None`,
otherwise only the part before a `T` is parsed. -/
def parseDate (o : Option String) : Option Date :=
  match o with
  | none => none
  | some s =>
    if s = "" then none
    else
      match splitOnChar 'T' s.data with
      | [] => none
      | t :: _ => parseYMD (String.mk t)

/-- A task record, typed according to the data model the engine reads
(`key`/`summary` strings, optional `isSubtask` boolean, optional date
strings, optional integer estimate in seconds, predecessor and subtask key
lists; an absent list behaves exactly like an empty one in the source). -/
structure Task where
  key : Option String := none
  summary : Option String := none
  isSubtask : Option Bool := none
  plan_start : Option String := none
  plan_end : Option String := none
  actual_start : Option String := none
  actual_end : Option String := none
  aggregatetimeoriginalestimate : Option Int := none
  predecessors : List String := []
  subtasks : List String := []
  keytask : Option String := none
deriving DecidableEq, Repr

/-- Step 1 of `calculate_task_duration`: the resolved start instant. -/
def taskStartDate (t : Task) : Option Date :=
  match parseDate t.plan_start, parseDate t.actual_start with
  | some p, some a => some (maxD p a)
  | some p, none => some p
  | none, some a => some a
  | none, none => none

/-- Step 2 of `calculate_task_duration`: the resolved end instant. -/
def taskEndDate (t : Task) : Option Date :=
  match taskStartDate t with
  | some ts =>
    match parseDate t.plan_end, parseDate t.actual_end with
    | some p, some a => some (if Date.le ts a then a else p)
    | some p, none => some p
    | none, some a => some a
    | none, none => none
  | none => none

/-- `AOEGraph.calculate_task_duration` (hours, or `none` when unresolvable). -/
def calculateTaskDuration (t : Task) : Option ℚ :=
  match taskStartDate t, taskEndDate t with
  | some ts, some te => some ((countWorkdays ts te * 8 : Nat) : ℚ)
  | _, _ =>
    match t.aggregatetimeoriginalestimate with
    | some est => if 0 < est then some ((est : ℚ) / 3600) else none
    | none => none

/-! ## The AOE graph (`class AOEGraph`) -/

/-- The mutable state of an `AOEGraph` instance: `nodes`, the adjacency
`defaultdict(list)`, the in-degree `defaultdict(int)`, the `ve` / `vl`
dicts, the computed `critical_path` and the task list stored by
`build_graph_from_tasks`. -/
structure AOEGraph where
  key : Option String := none
  name : Option String := none
  nodes : List (String × String) := []
  adj : List (String × List (String × ℚ)) := []
  in_degree : List (String × Int) := []
  ve : List (String × ℚ) := []
  vl : List (String × ℚ) := []
  critical_path : List (String × String × ℚ) := []
  tasks : List Task := []
deriving DecidableEq, Repr

/-- `AOEGraph.__init__`. -/
def AOEGraph.init (key name : Option String) : AOEGraph :=
  { key := key, name := name }

/-- `self.adj[u]` as a read (`defaultdict`: missing key reads as `[]`). -/
def outOf (g : AOEGraph) (u : String) : List (String × ℚ) :=
  lookupD g.adj u []

/-- `AOEGraph.add_node`. -/
def AOEGraph.addNode (g : AOEGraph) (nodeId nodeName : String) : AOEGraph :=
  let g := { g with nodes := setk g.nodes nodeId nodeName }
  match alookup g.in_degree nodeId with
  | some _ => g
  | none => { g with in_degree := setk g.in_degree nodeId 0 }

/-- The scan of `add_edge` over the existing out-edges of `start_node`:
replaces the first edge to `end_node` and returns `some`, or `none` when
no such edge exists. -/
def updEdge : List (String × ℚ) → String → ℚ → Option (List (String × ℚ))
  | [], _, _ => none
  | p :: rest, e, d =>
    if p.1 = e then some ((e, d) :: rest)
    else
      match updEdge rest e d with
      | some r => some (p :: r)
      | none => none

/-- `AOEGraph.add_edge`: overwrite the duration when the edge already
exists, else append it and increment the in-degree of `end_node`. -/
def AOEGraph.addEdge (g : AOEGraph) (s e : String) (d : ℚ) : AOEGraph :=
  match updEdge (outOf g s) e d with
  | some outs' => { g with adj := setk g.adj s outs' }
  | none =>
    { g with
      adj := setk g.adj s (outOf g s ++ [(e, d)]),
      in_degree := setk g.in_degree e (lookupD g.in_degree e 0 + 1) }

/-! ## Topological sort and the critical-path solver -/

/-- The inner loop of `topological_sort` for a popped node `u`: relax each
out-edge, decrement the in-degree copy and enqueue targets reaching zero. -/
def relaxEdges (u : String) :
    List (String × ℚ) →
    List (String × ℚ) × List (String × Int) × List String →
    List (String × ℚ) × List (String × Int) × List String
  | [], st => st
  | e :: rest, (ve, idc, q) =>
    let ve' := setk ve e.1 (max (lookupD ve e.1 0) (lookupD ve u 0 + e.2))
    let idc' := setk idc e.1 (lookupD idc e.1 0 - 1)
    let q' := if lookupD idc' e.1 0 = 0 then q ++ [e.1] else q
    relaxEdges u rest (ve', idc', q')

/-- Kahn's queue loop; the fuel strictly bounds the number of pops (each
node is enqueued at most once, since the copied in-degree of a node only
decreases and is tested against zero), so the returned state is always
the state at loop exit. -/
def topoLoop (g : AOEGraph) :
    Nat → List String → List (String × Int) → List (String × ℚ) →
    List String → List (String × ℚ) × List String
  | 0, _, _, ve, order => (ve, order)
  | fuel + 1, q, idc, ve, order =>
    match q with
    | [] => (ve, order)
    | u :: qs =>
      let st := relaxEdges u (outOf g u) (ve, idc, qs)
      topoLoop g fuel st.2.2 st.2.1 st.1 (order ++ [u])

def totalAdjLen (g : AOEGraph) : Nat := (g.adj.map (fun p => p.2.length)).sum

/-- `AOEGraph.topological_sort`: seeds the queue with the zero-in-degree
nodes, initialises every `ve` to 0 and runs Kahn's algorithm on a copy of
the in-degree map; returns the updated graph and the topological order. -/
def AOEGraph.topologicalSort (g : AOEGraph) : AOEGraph × List String :=
  let ve0 := g.nodes.foldl (fun m p => setk m p.1 0) g.ve
  let q0 := (g.nodes.map Prod.fst).filter (fun n => lookupD g.in_degree n 0 = 0)
  let fuel := g.nodes.length + totalAdjLen g + 1
  let r := topoLoop g fuel q0 g.in_degree ve0 []
  ({ g with ve := r.1 }, r.2)

/-- `max(self.ve.values())` (the Python call assumes a non-empty dict; an
empty one is unreachable through `build_graph_from_tasks`). -/
def maxValues (m : List (String × ℚ)) : ℚ :=
  match m with
  | [] => 0
  | p :: rest => rest.foldl (fun a q => max a q.2) p.2

/-- The inner loop of the backward pass for one node `u`:
`for v, w in adj[u]: vl[u] = min(vl[u], vl[v] - w)`. -/
def backStep (g : AOEGraph) (m : List (String × ℚ)) (u : String) :
    List (String × ℚ) :=
  (outOf g u).foldl
    (fun m2 e => setk m2 u (min (lookupD m2 u 0) (lookupD m2 e.1 0 - e.2)))
    m

/-- The backward pass of `calculate_critical_path`:
`for u in reversed(topo_order): for v, w in adj[u]: vl[u] = min(vl[u], vl[v]-w)`. -/
def backwardPass (g : AOEGraph) (order : List String)
    (vl0 : List (String × ℚ)) : List (String × ℚ) :=
  order.reverse.foldl (backStep g) vl0

/-- The critical-edge extraction of `calculate_critical_path`: an edge
`(u, v, w)` is collected when `e = ve[u]` equals `l = vl[v] - w`. -/
def extractCritical (g : AOEGraph) (ve vl : List (String × ℚ)) :
    List (String × String × ℚ) :=
  g.nodes.foldl
    (fun acc p =>
      acc ++ (outOf g p.1).filterMap
        (fun e =>
          if lookupD ve p.1 0 = lookupD vl e.1 0 - e.2 then
            some (p.1, e.1, e.2)
          else none))
    []

/-- `AOEGraph.calculate_critical_path`: returns the updated graph together
with `none` on a cycle (topological order shorter than the node count) or
`some (critical_edges, max_time)` otherwise. -/
def AOEGraph.calculateCriticalPath (g : AOEGraph) :
    AOEGraph × Option (List (String × String × ℚ) × ℚ) :=
  let s := g.topologicalSort
  let g := s.1
  let topoOrder := s.2
  if topoOrder.length ≠ g.nodes.length then (g, none)
  else
    let maxTime := maxValues g.ve
    let vl0 := g.nodes.foldl (fun m p => setk m p.1 maxTime) g.vl
    let vl := backwardPass g topoOrder vl0
    let ce := extractCritical g g.ve vl
    ({ g with vl := vl, critical_path := ce }, some (ce, maxTime))

/-- `s.endswith(suffix)`, expressed on the character lists. -/
def strEndsWith (s suffix : String) : Bool :=
  if suffix.data.length ≤ s.data.length then
    decide (s.data.drop (s.data.length - suffix.data.length) = suffix.data)
  else false

/-- `remove_suffix` (the call sites only use the non-empty suffix
`"_start"`, for which Python's `s[:-len(suffix)]` drops the last
`len(suffix)` characters). -/
def removeSuffix (s suffix : String) : String :=
  if strEndsWith s suffix then
    String.mk (s.data.take (s.data.length - suffix.data.length))
  else s

/-- `AOEGraph.get_task_by_key`: first task whose `key` field matches. -/
def getTaskByKey (tasks : List Task) (k : String) : Option Task :=
  tasks.find? (fun t => t.key = some k)

/-- `task["keytask"] = "true"`. -/
def setKeytask (t : Task) : Task := { t with keytask := some "true" }

/-- The body of the `get_critical_tasks` loop: for a critical edge of
positive duration, look the owning task up under the edge's source id
with `"_start"` stripped, flag it and append it. -/
def annotateStep (tasks : List Task) (acc : List Task)
    (e : String × String × ℚ) : List Task :=
  if 0 < e.2.2 then
    match getTaskByKey tasks (removeSuffix e.1 "_start") with
    | some t => acc ++ [setKeytask t]
    | none => acc
  else acc

/-- `AOEGraph.get_critical_tasks`: recompute the critical path when it is
empty, then collect the flagged tasks into the list stored under the
project key. -/
def AOEGraph.getCriticalTasks (g : AOEGraph) :
    AOEGraph × List (Option String × List Task) :=
  let g := if g.critical_path = [] then g.calculateCriticalPath.1 else g
  (g, [(g.key, g.critical_path.foldl (annotateStep g.tasks) [])])

/-! ## Graph construction from tasks (`add_nodes` / `add_edges`) -/

/-- Python f-string interpolation of an optional string (`None` prints as
`"None"`). -/
def pyStr (o : Option String) : String :=
  match o with
  | none => "None"
  | some s => s

/-- Truthiness of `task.get("key")` (`None` and `""` are falsy). -/
def truthyKey (o : Option String) : Bool :=
  match o with
  | none => false
  | some s => s ≠ ""

/-- One iteration of the first `add_edges` loop: the task-duration edge,
then predecessor edges or the project-start edge for non-subtasks. -/
def taskEdgesStep (projStart : String) (g : AOEGraph) (t : Task) : AOEGraph :=
  if ¬ truthyKey t.key then g
  else
    match calculateTaskDuration t with
    | none => g
    | some dur =>
      let tk := pyStr t.key
      let g := g.addEdge (tk ++ "_start") (tk ++ "_end") dur
      if t.predecessors ≠ [] then
        t.predecessors.foldl
          (fun g p => g.addEdge (p ++ "_end") (tk ++ "_start") 0) g
      else
        if t.isSubtask = some false then
          g.addEdge projStart (tk ++ "_start") 0
        else g

/-- The `referenced_tasks` set: every key occurring in some predecessor
list. -/
def referencedTasks (tasks : List Task) : List String :=
  tasks.foldl (fun acc t => acc ++ t.predecessors) []

/-- One step of the subgraph-entry loop inside the second `add_edges`
loop: wire the parent start node to a predecessor-free subtask's start
node, then evaluate `task_duration + calculate_task_duration(subtask)` —
when the subtask's duration is unresolvable (`None`) that addition raises
`TypeError` in the source, modelled as `Except.error`. -/
def subtaskEntryStep (tasks : List Task) (tk : String) (g : AOEGraph)
    (sk : String) : Except String AOEGraph :=
  match getTaskByKey tasks sk with
  | some sub =>
    let g :=
      if sub.predecessors = [] then
        g.addEdge (tk ++ "_start") (sk ++ "_start") 0
      else g
    match calculateTaskDuration sub with
    | some _ => .ok g
    | none =>
      .error "TypeError: unsupported operand type(s) for +: 'int' and 'NoneType'"
  | none => .ok g

/-- One step of the subgraph-exit loop: wire an unreferenced subtask's
end node to the parent's end node. -/
def subtaskExitStep (referenced : List String) (tk : String) (g : AOEGraph)
    (sk : String) : AOEGraph :=
  if ¬ referenced.contains sk then g.addEdge (sk ++ "_end") (tk ++ "_end") 0
  else g

/-- One iteration of the second `add_edges` loop (subtask wiring): entry
edges (with the fallible duration accumulation), exit edges, and finally
the task's own start→end edge forced to duration 0. -/
def subtaskStep (referenced : List String) (tasks : List Task)
    (g : AOEGraph) (t : Task) : Except String AOEGraph :=
  if ¬ truthyKey t.key then .ok g
  else
    let tk := pyStr t.key
    if t.subtasks ≠ [] then
      match t.subtasks.foldlM (subtaskEntryStep tasks tk) g with
      | .error e => .error e
      | .ok g =>
        let g := t.subtasks.foldl (subtaskExitStep referenced tk) g
        .ok (g.addEdge (tk ++ "_start") (tk ++ "_end") 0)
    else .ok g

/-- The final `add_edges` loop: connect every non-subtask task whose key
is referenced by nobody to the project-end node. -/
def terminationEdges (key : Option String) (referenced : List String)
    (tasks : List Task) (g : AOEGraph) : AOEGraph :=
  let endTasks := tasks.filter
    (fun t =>
      match t.key with
      | some k => ¬ referenced.contains k
      | none => true)
  endTasks.foldl
    (fun g t =>
      if t.isSubtask = some false then
        g.addEdge (pyStr t.key ++ "_end") (pyStr key ++ "_end") 0
      else g)
    g

/-- `AOEGraph.add_edges`. -/
def AOEGraph.addEdges (g : AOEGraph) (tasks : List Task)
    (key : Option String) : Except String AOEGraph :=
  let projStart := pyStr key ++ "_start"
  let g := tasks.foldl (taskEdgesStep projStart) g
  let referenced := referencedTasks tasks
  match tasks.foldlM (subtaskStep referenced tasks) g with
  | .error e => .error e
  | .ok g => .ok (terminationEdges key referenced tasks g)

/-- `AOEGraph.add_nodes`: project start node, two nodes per task, project
end node (logged early return when key or name is missing). -/
def AOEGraph.addNodes (g : AOEGraph) (tasks : List Task)
    (key name : Option String) : AOEGraph :=
  match key, name with
  | some k, some n =>
    let g := g.addNode (k ++ "_start") ("项目" ++ n ++ "开始")
    let g := tasks.foldl
      (fun (g : AOEGraph) t =>
        (g.addNode (pyStr t.key ++ "_start") (pyStr t.summary ++ "开始")).addNode
          (pyStr t.key ++ "_end") (pyStr t.summary ++ "完成"))
      g
    g.addNode (k ++ "_end") ("项目" ++ n ++ "结束")
  | _, _ => g

/-- `AOEGraph.build_graph_from_tasks`. -/
def AOEGraph.buildGraphFromTasks (g : AOEGraph) (tasks : List Task)
    (key name : Option String) : Except String AOEGraph :=
  ({ g with tasks := tasks }.addNodes tasks key name).addEdges tasks key

/-- The critical-path computation exercised by `find_critical_path`:
build the graph for the project, then `get_critical_tasks`. -/
def findCriticalTasksRun (tasks : List Task) (key name : String) :
    Except String (List (Option String × List Task)) :=
  match (AOEGraph.init (some key) (some name)).buildGraphFromTasks tasks
      (some key) (some name) with
  | .error e => .error e
  | .ok g => .ok g.getCriticalTasks.2

/-! ## Lemmas on the dict model -/

theorem alookup_setk_self {β : Type} (m : List (String × β)) (k : String)
    (v : β) : alookup (setk m k v) k = some v := by
  induction m with
  | nil => simp [setk, alookup]
  | cons p rest ih =>
    by_cases h : p.1 = k
    · simp [setk, alookup, h]
    · simp [setk, alookup, h, ih]

theorem alookup_setk_ne {β : Type} (m : List (String × β)) (k k' : String)
    (v : β) (h : k' ≠ k) : alookup (setk m k v) k' = alookup m k' := by
  have hk : ¬ k = k' := fun hh => h hh.symm
  induction m with
  | nil => simp [setk, alookup, hk]
  | cons p rest ih =>
    by_cases hp : p.1 = k
    · subst hp
      simp [setk, alookup, hk]
    · by_cases hp' : p.1 = k'
      · simp [setk, alookup, hp, hp', h]
      · simp [setk, alookup, hp, hp', ih]

theorem lookupD_setk_self {β : Type} (m : List (String × β)) (k : String)
    (v d : β) : lookupD (setk m k v) k d = v := by
  simp [lookupD, alookup_setk_self]

theorem lookupD_setk_ne {β : Type} (m : List (String × β)) (k k' : String)
    (v : β) (d : β) (h : k' ≠ k) :
    lookupD (setk m k v) k' d = lookupD m k' d := by
  simp [lookupD, alookup_setk_ne _ _ _ _ h]

theorem alookup_eq_none_iff {β : Type} (m : List (String × β)) (k : String) :
    alookup m k = none ↔ k ∉ m.map Prod.fst := by
  induction m with
  | nil => simp [alookup]
  | cons p rest ih =>
    by_cases h : p.1 = k
    · simp [alookup, h]
    · simp [alookup, h, ih, Ne.symm h]

theorem alookup_mem {β : Type} {m : List (String × β)} {k : String} {v : β}
    (h : alookup m k = some v) : (k, v) ∈ m := by
  induction m with
  | nil => simp [alookup] at h
  | cons p rest ih =>
    obtain ⟨a, b⟩ := p
    by_cases hp : a = k
    · subst hp
      have h' : b = v := by simpa [alookup] using h
      subst h'
      exact List.mem_cons_self _ _
    · simp only [alookup] at h
      rw [if_neg hp] at h
      exact List.mem_cons.mpr (.inr (ih h))

theorem self_mem_of_mem_keys {β : Type} {m : List (String × β)} {k : String}
    (d : β) (h : k ∈ m.map Prod.fst) : (k, lookupD m k d) ∈ m := by
  rcases ho : alookup m k with _ | v
  · exact absurd ((alookup_eq_none_iff m k).mp ho) (by simpa using h)
  · simpa [lookupD, ho] using alookup_mem ho

theorem keys_setk {β : Type} (m : List (String × β)) (k : String) (v : β) :
    (setk m k v).map Prod.fst
      = if k ∈ m.map Prod.fst then m.map Prod.fst
        else m.map Prod.fst ++ [k] := by
  induction m with
  | nil => simp [setk]
  | cons p rest ih =>
    by_cases h : p.1 = k
    · subst h
      simp [setk]
    · by_cases h2 : k ∈ rest.map Prod.fst
      · simp [setk, h, ih, h2, Ne.symm h]
      · simp [setk, h, ih, h2, Ne.symm h]

theorem mem_keys_setk {β : Type} (m : List (String × β)) (k a : String)
    (v : β) : a ∈ (setk m k v).map Prod.fst ↔ a ∈ m.map Prod.fst ∨ a = k := by
  rw [keys_setk]
  by_cases h : k ∈ m.map Prod.fst
  · rw [if_pos h]
    constructor
    · exact .inl
    · rintro (ha | rfl)
      · exact ha
      · exact h
  · rw [if_neg h]
    simp

/-! ## String-suffix lemmas for the synthetic node ids -/

theorem str_append_cancel {a b : String} (suf : String)
    (h : a ++ suf = b ++ suf) : a = b := by
  have hd : a.data ++ suf.data = b.data ++ suf.data := by
    simpa [String.data_append] using congrArg String.data h
  exact String.ext (List.append_cancel_right hd)

theorem start_ne_end_str (a b : String) : a ++ "_start" ≠ b ++ "_end" := by
  intro h
  have hd : a.data ++ "_start".data = b.data ++ "_end".data := by
    simpa [String.data_append] using congrArg String.data h
  have hr := congrArg List.reverse hd
  rw [List.reverse_append, List.reverse_append] at hr
  have h1 : ("_start".data).reverse
      = 't' :: 'r' :: 'a' :: 't' :: 's' :: '_' :: [] := by decide
  have h2 : ("_end".data).reverse = 'd' :: 'n' :: 'e' :: '_' :: [] := by decide
  rw [h1, h2] at hr
  simp only [List.cons_append, List.cons.injEq] at hr
  exact absurd hr.1 (by decide)

/-! ## Characterisation of `add_edge` -/

/-- The duration recorded on the edge `a → b`, if present. -/
def edgeDur (g : AOEGraph) (a b : String) : Option ℚ := alookup (outOf g a) b

/-- The durations recorded under target `b` in an out-edge list. -/
def bTo (l : List (String × ℚ)) (b : String) : List ℚ :=
  l.filterMap (fun p => if p.1 = b then some p.2 else none)

/-- The durations of all edges `a → b` (in adjacency-list order). -/
def edgesBetween (g : AOEGraph) (a b : String) : List ℚ :=
  bTo (outOf g a) b

theorem updEdge_none_iff (l : List (String × ℚ)) (e : String) (d : ℚ) :
    updEdge l e d = none ↔ alookup l e = none := by
  induction l with
  | nil => simp [updEdge, alookup]
  | cons p rest ih =>
    by_cases h : p.1 = e
    · simp [updEdge, alookup, h]
    · simp only [updEdge, alookup, if_neg h]
      cases hu : updEdge rest e d <;> simp_all

theorem alookup_updEdge_self {l r : List (String × ℚ)} {e : String} {d : ℚ}
    (h : updEdge l e d = some r) : alookup r e = some d := by
  induction l generalizing r with
  | nil => simp [updEdge] at h
  | cons p rest ih =>
    by_cases hp : p.1 = e
    · rw [updEdge, if_pos hp] at h
      cases h
      simp [alookup]
    · rw [updEdge, if_neg hp] at h
      cases hu : updEdge rest e d with
      | none => rw [hu] at h; cases h
      | some r' =>
        rw [hu] at h
        cases h
        simp [alookup, hp, ih hu]

theorem alookup_updEdge_ne {l r : List (String × ℚ)} {e : String} {d : ℚ}
    (h : updEdge l e d = some r) (b : String) (hb : b ≠ e) :
    alookup r b = alookup l b := by
  induction l generalizing r with
  | nil => simp [updEdge] at h
  | cons p rest ih =>
    by_cases hp : p.1 = e
    · rw [updEdge, if_pos hp] at h
      cases h
      have h1 : ¬ e = b := fun hh => hb (Eq.symm hh)
      have h2 : ¬ p.1 = b := fun hh => h1 (hp.symm.trans hh)
      simp [alookup, h1, h2]
    · rw [updEdge, if_neg hp] at h
      cases hu : updEdge rest e d with
      | none => rw [hu] at h; cases h
      | some r' =>
        rw [hu] at h
        cases h
        simp [alookup, ih hu]

theorem alookup_append_right {β : Type} (l : List (String × β)) (p : String × β)
    (b : String) (hb : p.1 ≠ b) : alookup (l ++ [p]) b = alookup l b := by
  induction l with
  | nil => simp [alookup, hb]
  | cons q rest ih => by_cases hq : q.1 = b <;> simp [alookup, hq, ih]

theorem alookup_append_self {β : Type} (l : List (String × β)) (e : String)
    (d : β) (h : alookup l e = none) : alookup (l ++ [(e, d)]) e = some d := by
  induction l with
  | nil => simp [alookup]
  | cons q rest ih =>
    by_cases hq : q.1 = e
    · simp [alookup, hq] at h
    · simp only [alookup, if_neg hq] at h
      rw [List.cons_append, alookup, if_neg hq]
      exact ih h

theorem outOf_addEdge_ne (g : AOEGraph) (s e : String) (d : ℚ) (a : String)
    (ha : a ≠ s) : outOf (g.addEdge s e d) a = outOf g a := by
  unfold AOEGraph.addEdge
  cases hu : updEdge (outOf g s) e d <;>
    simp [outOf, lookupD_setk_ne _ _ _ _ _ ha]

theorem outOf_addEdge_self_new (g : AOEGraph) (s e : String) (d : ℚ)
    (hu : updEdge (outOf g s) e d = none) :
    outOf (g.addEdge s e d) s = outOf g s ++ [(e, d)] := by
  unfold AOEGraph.addEdge
  rw [hu]
  simp [outOf, lookupD_setk_self]

theorem outOf_addEdge_self_found (g : AOEGraph) (s e : String) (d : ℚ)
    (r : List (String × ℚ)) (hu : updEdge (outOf g s) e d = some r) :
    outOf (g.addEdge s e d) s = r := by
  unfold AOEGraph.addEdge
  rw [hu]
  simp [outOf, lookupD_setk_self]

theorem edgeDur_addEdge_self (g : AOEGraph) (s e : String) (d : ℚ) :
    edgeDur (g.addEdge s e d) s e = some d := by
  unfold edgeDur
  cases hu : updEdge (outOf g s) e d with
  | none =>
    rw [outOf_addEdge_self_new g s e d hu]
    exact alookup_append_self _ _ _ ((updEdge_none_iff _ _ _).mp hu)
  | some r =>
    rw [outOf_addEdge_self_found g s e d r hu]
    exact alookup_updEdge_self hu

theorem edgeDur_addEdge_ne (g : AOEGraph) (s e : String) (d : ℚ)
    (a b : String) (h : ¬ (a = s ∧ b = e)) :
    edgeDur (g.addEdge s e d) a b = edgeDur g a b := by
  by_cases ha : a = s
  · subst ha
    have hb : b ≠ e := fun hb => h ⟨rfl, hb⟩
    unfold edgeDur
    cases hu : updEdge (outOf g a) e d with
    | none =>
      rw [outOf_addEdge_self_new g a e d hu]
      exact alookup_append_right _ _ _ (fun hh => hb hh.symm)
    | some r =>
      rw [outOf_addEdge_self_found g a e d r hu]
      exact alookup_updEdge_ne hu b hb
  · unfold edgeDur
    rw [outOf_addEdge_ne g s e d a ha]

theorem in_degree_addEdge_found (g : AOEGraph) (s e : String) (d : ℚ)
    (h : alookup (outOf g s) e ≠ none) :
    (g.addEdge s e d).in_degree = g.in_degree := by
  unfold AOEGraph.addEdge
  cases hu : updEdge (outOf g s) e d with
  | none => exact absurd ((updEdge_none_iff _ _ _).mp hu) h
  | some r => simp

theorem in_degree_addEdge_new (g : AOEGraph) (s e : String) (d : ℚ)
    (h : alookup (outOf g s) e = none) :
    (g.addEdge s e d).in_degree
      = setk g.in_degree e (lookupD g.in_degree e 0 + 1) := by
  unfold AOEGraph.addEdge
  cases hu : updEdge (outOf g s) e d with
  | none => simp
  | some r =>
    rw [← updEdge_none_iff _ _ d] at h
    simp [h] at hu

theorem bTo_cons (p : String × ℚ) (l : List (String × ℚ)) (b : String) :
    bTo (p :: l) b = if p.1 = b then p.2 :: bTo l b else bTo l b := by
  by_cases h : p.1 = b <;> simp [bTo, h]

theorem bTo_nil_iff (l : List (String × ℚ)) (b : String) :
    bTo l b = [] ↔ alookup l b = none := by
  induction l with
  | nil => simp [bTo, alookup]
  | cons p rest ih =>
    by_cases h : p.1 = b
    · simp [bTo, alookup, h]
    · simpa [bTo, alookup, h] using ih

theorem bTo_append_self (l : List (String × ℚ)) (e : String) (d : ℚ) :
    bTo (l ++ [(e, d)]) e = bTo l e ++ [d] := by
  simp [bTo]

theorem bTo_append_ne (l : List (String × ℚ)) (p : String × ℚ) (b : String)
    (hb : p.1 ≠ b) : bTo (l ++ [p]) b = bTo l b := by
  simp [bTo, hb]

theorem bTo_updEdge_length {l r : List (String × ℚ)} {e : String} {d : ℚ}
    (h : updEdge l e d = some r) (b : String) :
    (bTo r b).length = (bTo l b).length := by
  induction l generalizing r with
  | nil => simp [updEdge] at h
  | cons p rest ih =>
    by_cases hp : p.1 = e
    · rw [updEdge, if_pos hp] at h
      cases h
      by_cases hb : e = b
      · subst hb
        simp [bTo, hp]
      · have hpb : ¬ p.1 = b := fun hh => hb (hp.symm.trans hh)
        simp [bTo, hb, hpb]
    · rw [updEdge, if_neg hp] at h
      cases hu : updEdge rest e d with
      | none => rw [hu] at h; cases h
      | some r' =>
        rw [hu] at h
        cases h
        rw [bTo_cons, bTo_cons]
        by_cases hb : p.1 = b <;> simp [hb, ih hu]

theorem updEdge_append_last (l : List (String × ℚ)) (e : String) (d1 d2 : ℚ)
    (h : alookup l e = none) :
    updEdge (l ++ [(e, d1)]) e d2 = some (l ++ [(e, d2)]) := by
  induction l with
  | nil => simp [updEdge]
  | cons p rest ih =>
    by_cases hp : p.1 = e
    · simp [alookup, hp] at h
    · simp only [alookup, if_neg hp] at h
      rw [List.cons_append, updEdge, if_neg hp, ih h, List.cons_append]

/-! ## Generic preservation lemmas for edge-adding folds -/

theorem edgeDur_foldl {α : Type} (step : AOEGraph → α → AOEGraph)
    (l : List α) (g : AOEGraph) (a b : String)
    (hstep : ∀ g' x, x ∈ l → edgeDur (step g' x) a b = edgeDur g' a b) :
    edgeDur (l.foldl step g) a b = edgeDur g a b := by
  induction l generalizing g with
  | nil => rfl
  | cons x xs ih =>
    rw [List.foldl_cons, ih _ (fun g' y hy => hstep g' y (.tail x hy)),
      hstep g x (.head xs)]

theorem exceptBind_ok {g1 : Except String AOEGraph}
    {f : AOEGraph → Except String AOEGraph} {g' : AOEGraph}
    (h : (g1 >>= f) = .ok g') :
    ∃ h1, g1 = .ok h1 ∧ f h1 = .ok g' := by
  cases g1 with
  | error e => simp [Bind.bind, Except.bind] at h
  | ok h1 => exact ⟨h1, rfl, by simpa [Bind.bind, Except.bind] using h⟩

theorem edgeDur_foldlM {α : Type} (step : AOEGraph → α → Except String AOEGraph)
    (l : List α) (g g' : AOEGraph) (a b : String)
    (hok : l.foldlM step g = .ok g')
    (hstep : ∀ h h' x, x ∈ l → step h x = .ok h' →
      edgeDur h' a b = edgeDur h a b) :
    edgeDur g' a b = edgeDur g a b := by
  induction l generalizing g with
  | nil =>
    simp only [List.foldlM_nil] at hok
    cases hok
    rfl
  | cons x xs ih =>
    rw [List.foldlM_cons] at hok
    obtain ⟨h1, hx, hrest⟩ := exceptBind_ok hok
    rw [ih h1 hrest (fun h h' y hy => hstep h h' y (.tail x hy)),
      hstep g h1 x (.head xs) hx]

/-! ## Frame facts about the solver -/

theorem topologicalSort_fst_nodes (g : AOEGraph) :
    (g.topologicalSort).1.nodes = g.nodes := rfl

theorem topologicalSort_fst_adj (g : AOEGraph) :
    (g.topologicalSort).1.adj = g.adj := rfl

theorem topologicalSort_fst_in_degree (g : AOEGraph) :
    (g.topologicalSort).1.in_degree = g.in_degree := rfl

/-! ## Claims C10, C3, C2, C8, C1 -/

/-- C10: `calculate_critical_path` (including the `topological_sort`
forward pass) leaves the graph structure unchanged: node dict, adjacency
(hence the edge set with durations) and the recorded in-degree of every
node — the in-degree decrementing operates on `self.in_degree.copy()` —
as well as key, name and stored tasks; only `ve`, `vl` and
`critical_path` are written. -/
theorem c10_calculate_frame (g : AOEGraph) :
    g.calculateCriticalPath.1.nodes = g.nodes
    ∧ g.calculateCriticalPath.1.adj = g.adj
    ∧ g.calculateCriticalPath.1.in_degree = g.in_degree
    ∧ g.calculateCriticalPath.1.key = g.key
    ∧ g.calculateCriticalPath.1.name = g.name
    ∧ g.calculateCriticalPath.1.tasks = g.tasks := by
  simp only [AOEGraph.calculateCriticalPath]
  split <;> exact ⟨rfl, rfl, rfl, rfl, rfl, rfl⟩

/-- C3: when the topological sort visits fewer nodes than the node count
(the graph has a cycle), `calculate_critical_path` returns the explicit
"no critical path" result `none` instead of raising; the embedded solver
is a total function, so it terminates on every input. -/
theorem c3_cycle_returns_none (g : AOEGraph)
    (h : (g.topologicalSort).2.length < g.nodes.length) :
    g.calculateCriticalPath.2 = none := by
  have hne : (g.topologicalSort).2.length ≠ (g.topologicalSort).1.nodes.length := by
    rw [topologicalSort_fst_nodes]
    exact Nat.ne_of_lt h
  simp only [AOEGraph.calculateCriticalPath]
  rw [if_pos hne]

/-- A two-node cyclic graph, witnessing C3. -/
def gC3 : AOEGraph :=
  ((((AOEGraph.init (some "P") (some "p")).addNode "A" "a").addNode
    "B" "b").addEdge "A" "B" 1).addEdge "B" "A" 1

/-- Witness for C3 on the concrete two-node cycle. -/
theorem c3_witness :
    (gC3.topologicalSort).2.length < gC3.nodes.length
    ∧ gC3.calculateCriticalPath.2 = none :=
  ⟨by decide, c3_cycle_returns_none gC3 (by decide)⟩

/-- C2: starting from any graph state with no edge `A → B` yet, adding
`(A,B,d1)` and then `(A,B,d2)` leaves exactly one `A → B` edge, carrying
`d2`, with the in-degree of `B` incremented exactly once (by the first
insertion); and `add_edge` never creates a parallel edge from any state
that has at most one edge per ordered pair. -/
theorem c2_duplicate_edge_overwrite (g : AOEGraph) (A B : String) (d1 d2 : ℚ)
    (h : edgesBetween g A B = []) :
    edgesBetween ((g.addEdge A B d1).addEdge A B d2) A B = [d2]
    ∧ lookupD ((g.addEdge A B d1).addEdge A B d2).in_degree B 0
        = lookupD g.in_degree B 0 + 1
    ∧ lookupD (g.addEdge A B d1).in_degree B 0 = lookupD g.in_degree B 0 + 1
    ∧ ∀ (g' : AOEGraph) (s e a b : String) (d : ℚ),
        (edgesBetween g' a b).length ≤ 1 →
        (edgesBetween (g'.addEdge s e d) a b).length ≤ 1 := by
  have hnone : alookup (outOf g A) B = none := (bTo_nil_iff (outOf g A) B).mp h
  have hu1 : updEdge (outOf g A) B d1 = none := (updEdge_none_iff _ _ _).mpr hnone
  have hout1 : outOf (g.addEdge A B d1) A = outOf g A ++ [(B, d1)] :=
    outOf_addEdge_self_new _ _ _ _ hu1
  have hu2 : updEdge (outOf (g.addEdge A B d1) A) B d2
      = some (outOf g A ++ [(B, d2)]) := by
    rw [hout1]
    exact updEdge_append_last _ _ _ _ hnone
  have hout2 : outOf ((g.addEdge A B d1).addEdge A B d2) A
      = outOf g A ++ [(B, d2)] :=
    outOf_addEdge_self_found _ _ _ _ _ hu2
  refine ⟨?_, ?_, ?_, ?_⟩
  · show bTo (outOf ((g.addEdge A B d1).addEdge A B d2) A) B = [d2]
    rw [hout2, bTo_append_self]
    rw [show bTo (outOf g A) B = [] from h]
    rfl
  · have hfound : alookup (outOf (g.addEdge A B d1) A) B ≠ none := by
      rw [hout1, alookup_append_self _ _ _ hnone]
      simp
    rw [in_degree_addEdge_found _ _ _ _ hfound,
      in_degree_addEdge_new _ _ _ _ hnone, lookupD_setk_self]
  · rw [in_degree_addEdge_new _ _ _ _ hnone, lookupD_setk_self]
  · intro g' s e a b d hlen
    by_cases ha : a = s
    · subst ha
      show (bTo (outOf (g'.addEdge a e d) a) b).length ≤ 1
      cases hu : updEdge (outOf g' a) e d with
      | none =>
        rw [outOf_addEdge_self_new _ _ _ _ hu]
        by_cases hb : b = e
        · subst hb
          rw [bTo_append_self,
            show bTo (outOf g' a) b = []
              from (bTo_nil_iff _ _).mpr ((updEdge_none_iff _ _ _).mp hu)]
          simp
        · rw [bTo_append_ne _ _ _ (fun hh => hb hh.symm)]
          exact hlen
      | some r =>
        rw [outOf_addEdge_self_found _ _ _ _ _ hu, bTo_updEdge_length hu b]
        exact hlen
    · show (bTo (outOf (g'.addEdge s e d) a) b).length ≤ 1
      rw [outOf_addEdge_ne _ _ _ _ _ ha]
      exact hlen

/-- Witness for C2 on the empty graph with `A`, `B`, durations 5 and 8. -/
theorem c2_witness :
    edgesBetween
      (((AOEGraph.init none none).addEdge "A" "B" 5).addEdge "A" "B" 8)
      "A" "B" = [8]
    ∧ lookupD
        (((AOEGraph.init none none).addEdge "A" "B" 5).addEdge "A" "B" 8).in_degree
        "B" 0
      = lookupD (AOEGraph.init none none).in_degree "B" 0 + 1 := by
  have h := c2_duplicate_edge_overwrite (AOEGraph.init none none) "A" "B" 5 8
    (by decide)
  exact ⟨h.1, h.2.1⟩

theorem countWorkdays_of_end_lt (s e : Date) (h : Date.le s e = false) :
    countWorkdays s e = 0 := by
  unfold countWorkdays
  cases rdOf e + 1 - rdOf s with
  | zero => rfl
  | succ n => simp [countWorkdaysGo, h]

/-- C8: when the resolved start and end dates both parse but the end
precedes the start, `calculate_task_duration` returns 0 hours (the
working-day loop runs zero iterations), not `None`; consequently
`add_edges` creates a zero-duration task edge, and the
`aggregatetimeoriginalestimate` fallback is never consulted (the result
is 0 for every value of the estimate field, which the theorem quantifies
over). -/
theorem c8_end_before_start_zero (t : Task) (s e : Date)
    (h1 : taskStartDate t = some s) (h2 : taskEndDate t = some e)
    (h3 : Date.le s e = false) :
    calculateTaskDuration t = some 0
    ∧ countWorkdays s e = 0
    ∧ ∀ (g : AOEGraph) (projStart : String), truthyKey t.key = true →
        edgeDur (taskEdgesStep projStart g t)
          (pyStr t.key ++ "_start") (pyStr t.key ++ "_end") = some 0 := by
  have hcw := countWorkdays_of_end_lt s e h3
  have hdur : calculateTaskDuration t = some 0 := by
    unfold calculateTaskDuration
    rw [h1, h2]
    simp [hcw]
  refine ⟨hdur, hcw, ?_⟩
  intro g projStart hk
  have hcond : ¬ ¬ (truthyKey t.key = true) := by simp [hk]
  unfold taskEdgesStep
  rw [if_neg hcond]
  simp only [hdur]
  by_cases hp : t.predecessors = []
  · rw [if_neg (show ¬ t.predecessors ≠ [] by simp [hp])]
    by_cases hs : t.isSubtask = some false
    · rw [if_pos hs,
        edgeDur_addEdge_ne _ _ _ _ _ _
          (fun hc => start_ne_end_str (pyStr t.key) (pyStr t.key) hc.2.symm),
        edgeDur_addEdge_self]
    · rw [if_neg hs, edgeDur_addEdge_self]
  · rw [if_pos hp,
      edgeDur_foldl _ _ _ _ _
        (fun g' p _ => edgeDur_addEdge_ne g' (p ++ "_end")
          (pyStr t.key ++ "_start") 0 (pyStr t.key ++ "_start")
          (pyStr t.key ++ "_end")
          (fun hc => start_ne_end_str (pyStr t.key) p hc.1)),
      edgeDur_addEdge_self]

/-- A task whose chosen start (2025-06-10) is after both end candidates,
witnessing C8: duration resolves to 0 hours, not to the estimate. -/
def taskC8 : Task :=
  { key := some "T8", plan_start := some "2025-06-10",
    plan_end := some "2025-06-02", actual_end := some "2025-06-01T12:00:00",
    aggregatetimeoriginalestimate := some 999999 }

/-- Witness for C8 on `taskC8`. -/
theorem c8_witness :
    calculateTaskDuration taskC8 = some 0
    ∧ edgeDur (taskEdgesStep "P_start" (AOEGraph.init none none) taskC8)
        (pyStr taskC8.key ++ "_start") (pyStr taskC8.key ++ "_end")
      = some 0 := by
  have h := c8_end_before_start_zero taskC8 ⟨2025, 6, 10⟩ ⟨2025, 6, 2⟩
    (by decide) (by decide) (by decide)
  exact ⟨h.1, h.2.2 (AOEGraph.init none none) "P_start" (by decide)⟩

/-- The failing input for C1: a parent task with one subtask whose
duration is unresolvable (no usable dates, no positive estimate). -/
def tasksC1 : List Task :=
  [{ key := some "P", isSubtask := some false, subtasks := ["S"] },
   { key := some "S", isSubtask := some true }]

/-- C1 (refuted; code bug): on `tasksC1` the subtask-wiring loop of
`add_edges` evaluates `task_duration + calculate_task_duration(subtask)`
with a `None` summand and raises `TypeError`, so the critical-path
computation (`build_graph_from_tasks` + `get_critical_tasks`) propagates
an unhandled exception instead of returning a result — contradicting the
spec's "always returns a result, never throws" contract (the analogous
`None` guard exists in the first loop but is missing at this call site). -/
theorem c1_subtask_none_duration_raises :
    findCriticalTasksRun tasksC1 "PRJ" "PRJ项目"
      = .error
        "TypeError: unsupported operand type(s) for +: 'int' and 'NoneType'" := by
  rfl

/-! ## Write-pair analysis of the builder (for C6 and C9) -/

theorem foldlM_preserves {α : Type} (step : AOEGraph → α → Except String AOEGraph)
    (P : AOEGraph → Prop) (l : List α) (g g' : AOEGraph)
    (hok : l.foldlM step g = .ok g')
    (hstep : ∀ h h' x, x ∈ l → step h x = .ok h' → P h → P h')
    (hg : P g) : P g' := by
  induction l generalizing g with
  | nil =>
    simp only [List.foldlM_nil] at hok
    cases hok
    exact hg
  | cons x xs ih =>
    rw [List.foldlM_cons] at hok
    obtain ⟨h1, hx, hrest⟩ := exceptBind_ok hok
    exact ih h1 hrest (fun h h' y hy => hstep h h' y (.tail x hy))
      (hstep g h1 x (.head xs) hx hg)

theorem taskEdgesStep_preserves (projStart : String) (g : AOEGraph) (t : Task)
    (a b : String)
    (h1 : ¬ (a = pyStr t.key ++ "_start" ∧ b = pyStr t.key ++ "_end"))
    (h2 : ∀ p ∈ t.predecessors,
      ¬ (a = p ++ "_end" ∧ b = pyStr t.key ++ "_start"))
    (h3 : t.isSubtask = some false →
      ¬ (a = projStart ∧ b = pyStr t.key ++ "_start")) :
    edgeDur (taskEdgesStep projStart g t) a b = edgeDur g a b := by
  unfold taskEdgesStep
  by_cases hk : truthyKey t.key = true
  · rw [if_neg (by simp [hk])]
    cases hcd : calculateTaskDuration t with
    | none => simp only [hcd]
    | some dur =>
      simp only [hcd]
      by_cases hp : t.predecessors = []
      · rw [if_neg (by simp [hp])]
        by_cases hs : t.isSubtask = some false
        · rw [if_pos hs, edgeDur_addEdge_ne _ _ _ _ _ _ (h3 hs),
            edgeDur_addEdge_ne _ _ _ _ _ _ h1]
        · rw [if_neg hs, edgeDur_addEdge_ne _ _ _ _ _ _ h1]
      · rw [if_pos hp,
          edgeDur_foldl _ _ _ _ _
            (fun g' p hp' => edgeDur_addEdge_ne _ _ _ _ _ _ (h2 p hp')),
          edgeDur_addEdge_ne _ _ _ _ _ _ h1]
  · rw [if_pos hk]

theorem subtaskEntryStep_ok_cases (tasks : List Task) (tk : String)
    (g h' : AOEGraph) (sk : String)
    (hok : subtaskEntryStep tasks tk g sk = .ok h') :
    h' = g ∨ h' = g.addEdge (tk ++ "_start") (sk ++ "_start") 0 := by
  unfold subtaskEntryStep at hok
  cases hgt : getTaskByKey tasks sk with
  | none =>
    rw [hgt] at hok
    cases hok
    exact .inl rfl
  | some sub =>
    rw [hgt] at hok
    cases hcd : calculateTaskDuration sub with
    | none =>
      simp only [hcd] at hok
      cases hok
    | some d =>
      simp only [hcd] at hok
      by_cases hp : sub.predecessors = []
      · rw [if_pos hp] at hok
        cases hok
        exact .inr rfl
      · rw [if_neg hp] at hok
        cases hok
        exact .inl rfl

theorem subtaskExitStep_edgeDur (referenced : List String) (tk : String)
    (g : AOEGraph) (sk : String) (a b : String)
    (h : ¬ (a = sk ++ "_end" ∧ b = tk ++ "_end")) :
    edgeDur (subtaskExitStep referenced tk g sk) a b = edgeDur g a b := by
  unfold subtaskExitStep
  by_cases hc : ¬ referenced.contains sk = true
  · rw [if_pos hc]
    exact edgeDur_addEdge_ne _ _ _ _ _ _ h
  · rw [if_neg hc]

theorem subtaskStep_eq_of_skip (referenced : List String) (tasks : List Task)
    (g : AOEGraph) (t : Task)
    (h : truthyKey t.key = false ∨ t.subtasks = []) :
    subtaskStep referenced tasks g t = .ok g := by
  unfold subtaskStep
  rcases h with h | h
  · rw [if_pos (by simp [h])]
  · by_cases hk : ¬ truthyKey t.key = true
    · rw [if_pos hk]
    · rw [if_neg hk, if_neg (by simp [h])]

theorem subtaskStep_eq_of_sub (referenced : List String) (tasks : List Task)
    (g : AOEGraph) (t : Task) (hk : truthyKey t.key = true)
    (hsub : t.subtasks ≠ []) :
    subtaskStep referenced tasks g t
      = match t.subtasks.foldlM (subtaskEntryStep tasks (pyStr t.key)) g with
        | .error e => .error e
        | .ok g2 =>
          .ok ((t.subtasks.foldl (subtaskExitStep referenced (pyStr t.key))
              g2).addEdge (pyStr t.key ++ "_start") (pyStr t.key ++ "_end") 0) := by
  unfold subtaskStep
  rw [if_neg (by simp [hk]), if_pos hsub]

theorem subtaskStep_forces (referenced : List String) (tasks : List Task)
    (g g'' : AOEGraph) (t : Task)
    (hok : subtaskStep referenced tasks g t = .ok g'')
    (hk : truthyKey t.key = true) (hsub : t.subtasks ≠ []) :
    edgeDur g'' (pyStr t.key ++ "_start") (pyStr t.key ++ "_end") = some 0 := by
  rw [subtaskStep_eq_of_sub referenced tasks g t hk hsub] at hok
  cases hm : t.subtasks.foldlM (subtaskEntryStep tasks (pyStr t.key)) g with
  | error e =>
    rw [hm] at hok
    cases hok
  | ok g2 =>
    rw [hm] at hok
    cases hok
    exact edgeDur_addEdge_self _ _ _ _

theorem subtaskStep_preserves (referenced : List String) (tasks : List Task)
    (g g'' : AOEGraph) (t : Task) (a b : String)
    (hok : subtaskStep referenced tasks g t = .ok g'')
    (hentry : ∀ sk ∈ t.subtasks,
      ¬ (a = pyStr t.key ++ "_start" ∧ b = sk ++ "_start"))
    (hexit : ∀ sk ∈ t.subtasks,
      ¬ (a = sk ++ "_end" ∧ b = pyStr t.key ++ "_end"))
    (hforced : ¬ (a = pyStr t.key ++ "_start" ∧ b = pyStr t.key ++ "_end")) :
    edgeDur g'' a b = edgeDur g a b := by
  by_cases hk : truthyKey t.key = true
  · by_cases hsub : t.subtasks = []
    · rw [subtaskStep_eq_of_skip referenced tasks g t (.inr hsub)] at hok
      cases hok
      rfl
    · rw [subtaskStep_eq_of_sub referenced tasks g t hk hsub] at hok
      cases hm : t.subtasks.foldlM (subtaskEntryStep tasks (pyStr t.key)) g with
      | error e =>
        rw [hm] at hok
        cases hok
      | ok g2 =>
        rw [hm] at hok
        cases hok
        rw [edgeDur_addEdge_ne _ _ _ _ _ _ hforced,
          edgeDur_foldl _ _ _ _ _
            (fun g' sk hsk => subtaskExitStep_edgeDur _ _ _ _ _ _ (hexit sk hsk))]
        exact edgeDur_foldlM _ _ _ _ _ _ hm
          (fun h h' sk hsk hstep => by
            rcases subtaskEntryStep_ok_cases tasks (pyStr t.key) h h' sk hstep
              with rfl | rfl
            · rfl
            · exact edgeDur_addEdge_ne _ _ _ _ _ _ (hentry sk hsk))
  · rw [subtaskStep_eq_of_skip referenced tasks g t
      (.inl (by revert hk; cases truthyKey t.key <;> simp))] at hok
    cases hok
    rfl

theorem terminationEdges_preserves (key : Option String)
    (referenced : List String) (tasks : List Task) (g : AOEGraph)
    (a b : String)
    (h : ∀ t' ∈ tasks, t'.isSubtask = some false →
      ¬ (a = pyStr t'.key ++ "_end" ∧ b = pyStr key ++ "_end")) :
    edgeDur (terminationEdges key referenced tasks g) a b = edgeDur g a b := by
  unfold terminationEdges
  rw [edgeDur_foldl]
  intro g' t' ht'
  have ht'' : t' ∈ tasks := List.mem_of_mem_filter ht'
  by_cases hs : t'.isSubtask = some false
  · rw [if_pos hs]
    exact edgeDur_addEdge_ne _ _ _ _ _ _ (h t' ht'' hs)
  · rw [if_neg hs]

theorem addEdges_ok_elim {g : AOEGraph} {tasks : List Task}
    {key : Option String} {g' : AOEGraph}
    (hok : g.addEdges tasks key = .ok g') :
    ∃ g2, tasks.foldlM (subtaskStep (referencedTasks tasks) tasks)
        (tasks.foldl (taskEdgesStep (pyStr key ++ "_start")) g) = .ok g2
      ∧ g' = terminationEdges key (referencedTasks tasks) tasks g2 := by
  simp only [AOEGraph.addEdges] at hok
  split at hok
  · cases hok
  · rename_i g2 hm
    cases hok
    exact ⟨g2, hm, rfl⟩

/-- C6: for every task with a non-empty subtasks list (and a truthy key),
after a successful `add_edges` the edge from the task's own start node to
its end node has duration 0, overwriting whatever duration the first loop
computed from the task's dates or estimate. -/
theorem c6_parent_edge_forced_zero (g0 : AOEGraph) (tasks : List Task)
    (key : Option String) (g' : AOEGraph)
    (hok : g0.addEdges tasks key = .ok g')
    (t : Task) (ht : t ∈ tasks) (hk : truthyKey t.key = true)
    (hsub : t.subtasks ≠ []) :
    edgeDur g' (pyStr t.key ++ "_start") (pyStr t.key ++ "_end") = some 0 := by
  obtain ⟨g2, hm, rfl⟩ := addEdges_ok_elim hok
  rw [terminationEdges_preserves _ _ _ _ _ _
    (fun t' _ _ hc => start_ne_end_str (pyStr t.key) (pyStr t'.key) hc.1)]
  obtain ⟨pre, post, rfl⟩ := List.append_of_mem ht
  rw [List.foldlM_append] at hm
  obtain ⟨gA, hpre, hm2⟩ := exceptBind_ok hm
  rw [List.foldlM_cons] at hm2
  obtain ⟨gB, hstep, hpost⟩ := exceptBind_ok hm2
  exact foldlM_preserves _
    (fun h => edgeDur h (pyStr t.key ++ "_start") (pyStr t.key ++ "_end")
      = some 0)
    post gB g2 hpost
    (fun h h' t' _ hok' hP => by
      show edgeDur h' (pyStr t.key ++ "_start") (pyStr t.key ++ "_end")
        = some 0
      by_cases heq : pyStr t'.key = pyStr t.key
      · by_cases hk' : truthyKey t'.key = true
        · by_cases hsub' : t'.subtasks = []
          · rw [subtaskStep_eq_of_skip _ _ _ _ (.inr hsub')] at hok'
            cases hok'
            exact hP
          · rw [← heq]
            exact subtaskStep_forces _ _ _ _ _ hok' hk' hsub'
        · rw [subtaskStep_eq_of_skip _ _ _ _
            (.inl (by revert hk'; cases truthyKey t'.key <;> simp))] at hok'
          cases hok'
          exact hP
      · rw [subtaskStep_preserves _ _ _ _ _ _ _ hok'
          (fun sk _ hc => start_ne_end_str sk (pyStr t.key) hc.2.symm)
          (fun sk _ hc => start_ne_end_str (pyStr t.key) sk hc.1)
          (fun hc => heq (str_append_cancel "_start" hc.1).symm)]
        exact hP
      )
    (subtaskStep_forces _ _ _ _ _ hstep hk hsub)

/-- Tasks witnessing C6: parent `P` (with its own 10h estimate) holding a
single 1h subtask `S1`. -/
def taskC6P : Task :=
  { key := some "P", isSubtask := some false, subtasks := ["S1"],
    aggregatetimeoriginalestimate := some 36000 }

def taskC6S : Task :=
  { key := some "S1", isSubtask := some true,
    aggregatetimeoriginalestimate := some 3600 }

def tasksC6 : List Task := [taskC6P, taskC6S]

def gC6 : AOEGraph :=
  match (AOEGraph.init (some "PJ") (some "pj")).addEdges tasksC6 (some "PJ") with
  | .ok g => g
  | .error _ => AOEGraph.init none none

/-- Witness for C6: on `tasksC6`, `P`'s own start→end edge ends up with
duration 0 although `P` carries a 10-hour estimate. -/
theorem c6_witness :
    edgeDur gC6 (pyStr taskC6P.key ++ "_start") (pyStr taskC6P.key ++ "_end")
      = some 0 :=
  c6_parent_edge_forced_zero (AOEGraph.init (some "PJ") (some "pj")) tasksC6
    (some "PJ") gC6 rfl taskC6P (List.Mem.head _) rfl (by decide)

/-! ## C9: structural wiring skipped unless `isSubtask == False` exactly -/

theorem addNode_adj (g : AOEGraph) (i n : String) :
    (g.addNode i n).adj = g.adj := by
  simp only [AOEGraph.addNode]
  split <;> rfl

theorem foldl_adj {α : Type} (step : AOEGraph → α → AOEGraph)
    (hstep : ∀ g x, (step g x).adj = g.adj) (l : List α) (g : AOEGraph) :
    (l.foldl step g).adj = g.adj := by
  induction l generalizing g with
  | nil => rfl
  | cons x xs ih => rw [List.foldl_cons, ih, hstep]

theorem addNodes_adj (g : AOEGraph) (tasks : List Task)
    (key name : Option String) : (g.addNodes tasks key name).adj = g.adj := by
  unfold AOEGraph.addNodes
  cases key with
  | none => rfl
  | some k =>
    cases name with
    | none => rfl
    | some n =>
      rw [addNode_adj,
        foldl_adj _ (fun g t => by rw [addNode_adj, addNode_adj]),
        addNode_adj]

theorem edgeDur_of_adj_nil (g : AOEGraph) (h : g.adj = []) (a b : String) :
    edgeDur g a b = none := by
  simp [edgeDur, outOf, lookupD, h, alookup]

/-- C9: a task `t` whose `isSubtask` field is absent (or `some true` —
anything but exactly `False`, which is what both source checks compare
against) is treated like a subtask by the structural wiring of
`add_edges`: with no predecessors it still gets no zero-duration edge
from the project-start node, and as a leaf it still gets no zero-duration
edge to the project-end node.  The task keys are assumed pairwise
distinct and distinct from the project key, which rules out unrelated
node-id collisions. -/
theorem c9_missing_isSubtask_wiring (tasks : List Task)
    (key name : Option String) (g' : AOEGraph)
    (hok : (AOEGraph.init key name).buildGraphFromTasks tasks key name = .ok g')
    (t : Task) (ht : t ∈ tasks) (hsub : t.isSubtask ≠ some false)
    (hproj : ∀ t' ∈ tasks, pyStr t'.key ≠ pyStr key)
    (huniq : ∀ t' ∈ tasks, pyStr t'.key = pyStr t.key → t' = t) :
    (t.predecessors = [] →
      edgeDur g' (pyStr key ++ "_start") (pyStr t.key ++ "_start") = none)
    ∧ (pyStr t.key ∉ referencedTasks tasks →
      edgeDur g' (pyStr t.key ++ "_end") (pyStr key ++ "_end") = none) := by
  unfold AOEGraph.buildGraphFromTasks at hok
  obtain ⟨g2, hm, rfl⟩ := addEdges_ok_elim hok
  have hadj0 :
      ({ AOEGraph.init key name with tasks := tasks }.addNodes tasks
        key name).adj = [] := by
    rw [addNodes_adj]
    rfl
  constructor
  · intro _
    have h1 : edgeDur
        ({ AOEGraph.init key name with tasks := tasks }.addNodes tasks
          key name)
        (pyStr key ++ "_start") (pyStr t.key ++ "_start") = none :=
      edgeDur_of_adj_nil _ hadj0 _ _
    have h2 : edgeDur
        (tasks.foldl (taskEdgesStep (pyStr key ++ "_start"))
          ({ AOEGraph.init key name with tasks := tasks }.addNodes tasks
            key name))
        (pyStr key ++ "_start") (pyStr t.key ++ "_start") = none := by
      rw [edgeDur_foldl _ _ _ _ _
        (fun g'' t' ht' => taskEdgesStep_preserves _ _ _ _ _
          (fun hc => start_ne_end_str (pyStr t.key) (pyStr t'.key) hc.2)
          (fun p _ hc => start_ne_end_str (pyStr key) p hc.1)
          (fun hs hc => hsub (by
            rw [huniq t' ht' (str_append_cancel "_start" hc.2).symm] at hs
            exact hs)))]
      exact h1
    have h3 : edgeDur g2 (pyStr key ++ "_start")
        (pyStr t.key ++ "_start") = none :=
      foldlM_preserves _
        (fun h => edgeDur h (pyStr key ++ "_start")
          (pyStr t.key ++ "_start") = none)
        tasks _ g2 hm
        (fun h h' t' ht' hok' hP => by
          show edgeDur h' (pyStr key ++ "_start")
            (pyStr t.key ++ "_start") = none
          rw [subtaskStep_preserves _ _ _ _ _ _ _ hok'
            (fun sk _ hc => hproj t' ht'
              (str_append_cancel "_start" hc.1).symm)
            (fun sk _ hc => start_ne_end_str (pyStr key) sk hc.1)
            (fun hc => start_ne_end_str (pyStr t.key) (pyStr t'.key) hc.2)]
          exact hP)
        h2
    rw [terminationEdges_preserves _ _ _ _ _ _
      (fun t' _ _ hc => start_ne_end_str (pyStr key) (pyStr t'.key) hc.1)]
    exact h3
  · intro _
    have h1 : edgeDur
        ({ AOEGraph.init key name with tasks := tasks }.addNodes tasks
          key name)
        (pyStr t.key ++ "_end") (pyStr key ++ "_end") = none :=
      edgeDur_of_adj_nil _ hadj0 _ _
    have h2 : edgeDur
        (tasks.foldl (taskEdgesStep (pyStr key ++ "_start"))
          ({ AOEGraph.init key name with tasks := tasks }.addNodes tasks
            key name))
        (pyStr t.key ++ "_end") (pyStr key ++ "_end") = none := by
      rw [edgeDur_foldl _ _ _ _ _
        (fun g'' t' ht' => taskEdgesStep_preserves _ _ _ _ _
          (fun hc => start_ne_end_str (pyStr t'.key) (pyStr t.key)
            hc.1.symm)
          (fun p _ hc => start_ne_end_str (pyStr t'.key) (pyStr key)
            hc.2.symm)
          (fun hs hc => start_ne_end_str (pyStr key) (pyStr t.key)
            hc.1.symm))]
      exact h1
    have h3 : edgeDur g2 (pyStr t.key ++ "_end")
        (pyStr key ++ "_end") = none :=
      foldlM_preserves _
        (fun h => edgeDur h (pyStr t.key ++ "_end")
          (pyStr key ++ "_end") = none)
        tasks _ g2 hm
        (fun h h' t' ht' hok' hP => by
          show edgeDur h' (pyStr t.key ++ "_end")
            (pyStr key ++ "_end") = none
          rw [subtaskStep_preserves _ _ _ _ _ _ _ hok'
            (fun sk _ hc => start_ne_end_str (pyStr t'.key) (pyStr t.key)
              hc.1.symm)
            (fun sk _ hc => hproj t' ht'
              (str_append_cancel "_end" hc.2).symm)
            (fun hc => start_ne_end_str (pyStr t'.key) (pyStr t.key)
              hc.1.symm)]
          exact hP)
        h2
    rw [terminationEdges_preserves _ _ _ _ _ _
      (fun t' ht' hs hc => hsub (by
        rw [huniq t' ht' (str_append_cancel "_end" hc.1).symm] at hs
        exact hs))]
    exact h3

/-- Witness input for C9: a task with an absent `isSubtask` field. -/
def taskC9 : Task :=
  { key := some "T1", aggregatetimeoriginalestimate := some 3600 }

def tasksC9 : List Task := [taskC9]

def gC9 : AOEGraph :=
  match (AOEGraph.init (some "PJ") (some "pj")).buildGraphFromTasks tasksC9
      (some "PJ") (some "pj") with
  | .ok g => g
  | .error _ => AOEGraph.init none none

/-- Witness for C9: `taskC9` has no predecessors and is a leaf, yet gets
neither the project-start nor the project-end structural edge. -/
theorem c9_witness :
    edgeDur gC9 (pyStr (some "PJ") ++ "_start")
      (pyStr taskC9.key ++ "_start") = none
    ∧ edgeDur gC9 (pyStr taskC9.key ++ "_end")
      (pyStr (some "PJ") ++ "_end") = none := by
  have h := c9_missing_isSubtask_wiring tasksC9 (some "PJ") (some "pj") gC9
    rfl taskC9 (List.Mem.head _) (by decide) (by decide) (by decide)
  exact ⟨h.1 rfl, h.2 (by decide)⟩

/-! ## C7: the critical-task annotation -/

theorem annotateStep_subset (tasks : List Task) (acc : List Task)
    (e : String × String × ℚ) (x : Task) (h : x ∈ acc) :
    x ∈ annotateStep tasks acc e := by
  unfold annotateStep
  by_cases hw : 0 < e.2.2
  · rw [if_pos hw]
    cases getTaskByKey tasks (removeSuffix e.1 "_start") with
    | none => exact h
    | some t => exact List.mem_append_left _ h
  · rw [if_neg hw]
    exact h

theorem annotate_fold_mono (tasks : List Task)
    (cp : List (String × String × ℚ)) (acc : List Task) (x : Task)
    (h : x ∈ acc) : x ∈ cp.foldl (annotateStep tasks) acc := by
  induction cp generalizing acc with
  | nil => exact h
  | cons e rest ih => exact ih _ (annotateStep_subset tasks acc e x h)

theorem annotate_fold_mem_of (tasks : List Task)
    (cp : List (String × String × ℚ)) (acc : List Task)
    (u v : String) (w : ℚ) (t0 : Task) (he : (u, v, w) ∈ cp) (hw : 0 < w)
    (ht : getTaskByKey tasks (removeSuffix u "_start") = some t0) :
    setKeytask t0 ∈ cp.foldl (annotateStep tasks) acc := by
  induction cp generalizing acc with
  | nil => cases he
  | cons e rest ih =>
    rcases List.mem_cons.mp he with he1 | he2
    · rw [List.foldl_cons]
      apply annotate_fold_mono
      rw [← he1]
      unfold annotateStep
      rw [if_pos hw]
      simp only [ht]
      exact List.mem_append_right _ (List.Mem.head _)
    · exact ih _ he2

theorem annotate_fold_mem_elim (tasks : List Task)
    (cp : List (String × String × ℚ)) (acc : List Task) (t0 : Task)
    (h : t0 ∈ cp.foldl (annotateStep tasks) acc) :
    t0 ∈ acc
    ∨ ∃ u v w, (u, v, w) ∈ cp ∧ 0 < w
      ∧ ∃ t1, getTaskByKey tasks (removeSuffix u "_start") = some t1
        ∧ t0 = setKeytask t1 := by
  induction cp generalizing acc with
  | nil => exact .inl h
  | cons e rest ih =>
    rw [List.foldl_cons] at h
    rcases ih _ h with h0 | ⟨u, v, w, hm, hw, t1, ht, rfl⟩
    · unfold annotateStep at h0
      by_cases hw : 0 < e.2.2
      · rw [if_pos hw] at h0
        cases hgt : getTaskByKey tasks (removeSuffix e.1 "_start") with
        | none =>
          rw [hgt] at h0
          exact .inl h0
        | some t1 =>
          rw [hgt] at h0
          rcases List.mem_append.mp h0 with h1 | h1
          · exact .inl h1
          · refine .inr ⟨e.1, e.2.1, e.2.2, List.Mem.head _, hw, t1, hgt, ?_⟩
            cases h1 with
            | head => rfl
            | tail _ hh => cases hh
      · rw [if_neg hw] at h0
        exact .inl h0
    · exact .inr ⟨u, v, w, List.Mem.tail _ hm, hw, t1, ht, rfl⟩

/-- C7: after `get_critical_tasks`, the output is a singleton mapping from
the project key to a list that contains, for every critical edge of
positive duration, the flagged copy (`keytask = "true"`) of the task
found under the edge's source id with `"_start"` stripped; and every
member of that list arises from such a positive-duration critical edge —
tasks attached only to zero-duration critical edges are never included
or flagged. -/
theorem c7_critical_task_annotation (g : AOEGraph) :
    ∃ l, (g.getCriticalTasks).2 = [((g.getCriticalTasks).1.key, l)]
    ∧ (∀ u v w, (u, v, w) ∈ (g.getCriticalTasks).1.critical_path → 0 < w →
        ∀ t0, getTaskByKey (g.getCriticalTasks).1.tasks
            (removeSuffix u "_start") = some t0 →
          setKeytask t0 ∈ l)
    ∧ (∀ t0, t0 ∈ l → t0.keytask = some "true"
        ∧ ∃ u v w, (u, v, w) ∈ (g.getCriticalTasks).1.critical_path ∧ 0 < w
          ∧ ∃ t1, getTaskByKey (g.getCriticalTasks).1.tasks
              (removeSuffix u "_start") = some t1
            ∧ t0 = setKeytask t1) := by
  refine ⟨(g.getCriticalTasks).1.critical_path.foldl
    (annotateStep (g.getCriticalTasks).1.tasks) [], rfl, ?_, ?_⟩
  · intro u v w he hw t0 ht
    exact annotate_fold_mem_of _ _ _ u v w t0 he hw ht
  · intro t0 h0
    rcases annotate_fold_mem_elim _ _ _ _ h0 with h1 | ⟨u, v, w, hm, hw, t1, ht, rfl⟩
    · cases h1
    · exact ⟨rfl, u, v, w, hm, hw, t1, ht, rfl⟩

/-- Witness input for C7: a precomputed graph whose critical path holds
one positive edge owned by task `T1`. -/
def taskC7 : Task := { key := some "T1" }

def gC7 : AOEGraph :=
  { key := some "PJ", tasks := [taskC7],
    critical_path := [("T1_start", "T1_end", 8)] }

/-- Witness for C7 on `gC7`: the flagged copy of `T1` is in the output
list under the project key. -/
theorem c7_witness :
    ∃ l, (gC7.getCriticalTasks).2 = [((gC7.getCriticalTasks).1.key, l)]
    ∧ setKeytask taskC7 ∈ l := by
  obtain ⟨l, h1, h2, h3⟩ := c7_critical_task_annotation gC7
  exact ⟨l, h1,
    h2 "T1_start" "T1_end" 8 (by decide) (by norm_num) taskC7 (by decide)⟩

/-! ## Counting infrastructure for the Kahn-loop invariants (C4, C5) -/

def nodeKeys (g : AOEGraph) : List String := g.nodes.map Prod.fst

/-- `in_degree` read with the `defaultdict(int)` default. -/
def inDeg0 (g : AOEGraph) (v : String) : Int := lookupD g.in_degree v 0

/-- How many entries of an out-edge list point at `v`. -/
def intoCount (l : List (String × ℚ)) (v : String) : Nat :=
  (l.filter (fun q => q.1 = v)).length

/-- Edges into `v` whose source lies in `srcs` (with multiplicity). -/
def cntFrom (g : AOEGraph) (srcs : List String) (v : String) : Nat :=
  (srcs.map (fun s => intoCount (outOf g s) v)).sum

/-- The total number of edges into `v` recorded in the adjacency. -/
def totalInto (g : AOEGraph) (v : String) : Nat :=
  (g.adj.map (fun p => intoCount p.2 v)).sum

/-- The well-formedness invariants of the data model: unique node and
adjacency keys, edges between existing nodes, in-degree counters
consistent with the edges, and fresh `ve` / `vl` dicts (the per-request
lifecycle of the spec). -/
structure WellFormed (g : AOEGraph) : Prop where
  nodes_nodup : (nodeKeys g).Nodup
  adj_nodup : (g.adj.map Prod.fst).Nodup
  adj_src : ∀ p ∈ g.adj, p.1 ∈ nodeKeys g
  adj_tgt : ∀ p ∈ g.adj, ∀ q ∈ p.2, q.1 ∈ nodeKeys g
  indeg : ∀ v, inDeg0 g v = (totalInto g v : Int)
  ve_empty : g.ve = []
  vl_empty : g.vl = []

theorem alookup_of_nodup {β : Type} {m : List (String × β)}
    (h : (m.map Prod.fst).Nodup) {k : String} {v : β} (hm : (k, v) ∈ m) :
    alookup m k = some v := by
  induction m with
  | nil => cases hm
  | cons p rest ih =>
    rcases List.mem_cons.mp hm with rfl | hm2
    · simp [alookup]
    · have hk : ¬ p.1 = k := by
        intro hh
        have : k ∈ rest.map Prod.fst := List.mem_map.mpr ⟨(k, v), hm2, rfl⟩
        rw [List.map_cons, hh] at h
        exact (List.nodup_cons.mp h).1 this
      rw [alookup, if_neg hk]
      exact ih (List.nodup_cons.mp (by rwa [List.map_cons] at h)).2 hm2

theorem outOf_entry {g : AOEGraph} (hnd : (g.adj.map Prod.fst).Nodup)
    {p : String × List (String × ℚ)} (hp : p ∈ g.adj) : outOf g p.1 = p.2 := by
  have := alookup_of_nodup hnd (show (p.1, p.2) ∈ g.adj by simpa using hp)
  simp [outOf, lookupD, this]

theorem outOf_nil_of_not_key {g : AOEGraph} {s : String}
    (h : s ∉ g.adj.map Prod.fst) : outOf g s = [] := by
  simp [outOf, lookupD, (alookup_eq_none_iff _ _).mpr h]

theorem totalInto_eq_cntFrom (g : AOEGraph)
    (hnd : (g.adj.map Prod.fst).Nodup) (v : String) :
    totalInto g v = cntFrom g (g.adj.map Prod.fst) v := by
  unfold totalInto cntFrom
  rw [List.map_map]
  exact congrArg List.sum (List.map_congr_left
    (fun p hp => by simp [outOf_entry hnd hp])).symm

theorem natSum_le_of_subperm (l l' : List Nat) (h : l.Subperm l') :
    l.sum ≤ l'.sum := by
  obtain ⟨l'', hperm, hsub⟩ := h
  rw [← hperm.sum_eq]
  exact List.Sublist.sum_le_sum hsub (fun x _ => Nat.zero_le x)

theorem cntFrom_filter_keys (g : AOEGraph) (srcs : List String) (v : String) :
    cntFrom g srcs v
      = cntFrom g (srcs.filter (fun s => s ∈ g.adj.map Prod.fst)) v := by
  induction srcs with
  | nil => rfl
  | cons s rest ih =>
    rw [List.filter_cons]
    by_cases hs : s ∈ g.adj.map Prod.fst
    · rw [if_pos (by simp [hs])]
      simp only [cntFrom, List.map_cons, List.sum_cons] at ih ⊢
      rw [ih]
    · rw [if_neg (by simp [hs])]
      simp only [cntFrom, List.map_cons, List.sum_cons] at ih ⊢
      rw [← ih, outOf_nil_of_not_key hs]
      simp [intoCount]

theorem cntFrom_le_totalInto (g : AOEGraph)
    (hnd : (g.adj.map Prod.fst).Nodup) (srcs : List String)
    (hs : srcs.Nodup) (v : String) : cntFrom g srcs v ≤ totalInto g v := by
  rw [totalInto_eq_cntFrom g hnd v, cntFrom_filter_keys g srcs v]
  apply natSum_le_of_subperm
  have hsubset : (srcs.filter (fun s => s ∈ g.adj.map Prod.fst))
      ⊆ g.adj.map Prod.fst := by
    intro x hx
    simpa using List.of_mem_filter hx
  obtain ⟨l'', hperm, hsub⟩ := (hs.filter _).subperm hsubset
  exact ⟨l''.map _, hperm.map _, hsub.map _⟩

theorem intoCount_append (l1 l2 : List (String × ℚ)) (v : String) :
    intoCount (l1 ++ l2) v = intoCount l1 v + intoCount l2 v := by
  simp [intoCount]

theorem intoCount_cons (e : String × ℚ) (l : List (String × ℚ)) (v : String) :
    intoCount (e :: l) v
      = (if e.1 = v then 1 else 0) + intoCount l v := by
  by_cases h : e.1 = v <;> simp [intoCount, h, Nat.add_comm]

theorem cntFrom_append (g : AOEGraph) (s1 s2 : List String) (v : String) :
    cntFrom g (s1 ++ s2) v = cntFrom g s1 v + cntFrom g s2 v := by
  simp [cntFrom]

theorem cntFrom_singleton (g : AOEGraph) (s v : String) :
    cntFrom g [s] v = intoCount (outOf g s) v := by
  simp [cntFrom]

theorem nodup_append_singleton {l : List String} {x : String}
    (h : l.Nodup) (hx : x ∉ l) : (l ++ [x]).Nodup := by
  rw [List.nodup_append]
  exact ⟨h, List.nodup_singleton x,
    fun a ha hb => hx ((List.mem_singleton.mp hb) ▸ ha)⟩

theorem processed_le_total (g : AOEGraph)
    (hnd_adj : (g.adj.map Prod.fst).Nodup) {order : List String}
    (hnd : order.Nodup) {u : String} (hu : u ∉ order) (v : String) :
    cntFrom g order v + intoCount (outOf g u) v ≤ totalInto g v := by
  have h := cntFrom_le_totalInto g hnd_adj (order ++ [u])
    (nodup_append_singleton hnd hu) v
  rwa [cntFrom_append, cntFrom_singleton] at h

theorem mem_setk_elim {β : Type} {m : List (String × β)} {k : String}
    {v : β} {p : String × β} (h : p ∈ setk m k v) : p ∈ m ∨ p.1 = k := by
  induction m with
  | nil =>
    simp [setk] at h
    subst h
    exact .inr rfl
  | cons q rest ih =>
    by_cases hq : q.1 = k
    · rw [setk, if_pos hq] at h
      rcases List.mem_cons.mp h with rfl | h2
      · exact .inr rfl
      · exact .inl (List.Mem.tail _ h2)
    · rw [setk, if_neg hq] at h
      rcases List.mem_cons.mp h with rfl | h2
      · exact .inl (List.Mem.head _)
      · rcases ih h2 with h3 | h3
        · exact .inl (List.Mem.tail _ h3)
        · exact .inr h3

theorem source_mem_nodeKeys {g : AOEGraph} (hwf : WellFormed g) {u : String}
    (h : outOf g u ≠ []) : u ∈ nodeKeys g := by
  cases halk : alookup g.adj u with
  | none => exact absurd (by simp [outOf, lookupD, halk]) h
  | some l => exact hwf.adj_src (u, l) (alookup_mem halk)

theorem target_mem_nodeKeys {g : AOEGraph} (hwf : WellFormed g) {u : String}
    {e : String × ℚ} (he : e ∈ outOf g u) : e.1 ∈ nodeKeys g := by
  cases halk : alookup g.adj u with
  | none =>
    rw [show outOf g u = [] by simp [outOf, lookupD, halk]] at he
    cases he
  | some l =>
    rw [show outOf g u = l by simp [outOf, lookupD, halk]] at he
    exact hwf.adj_tgt (u, l) (alookup_mem halk) e he

theorem append_singleton_split {α : Type} (order l1 l2 : List α) (s x : α)
    (h : order ++ [x] = l1 ++ s :: l2) :
    (∃ l2', order = l1 ++ s :: l2' ∧ l2 = l2' ++ [x])
    ∨ (l1 = order ∧ s = x ∧ l2 = []) := by
  rcases l2.eq_nil_or_concat with rfl | ⟨l2', y, rfl⟩
  · have := List.append_inj' h rfl
    simp at this
    exact .inr ⟨this.1.symm, this.2.symm, rfl⟩
  · rw [List.concat_eq_append] at h
    have h2 : order ++ [x] = (l1 ++ s :: l2') ++ [y] := by
      rw [h]
      simp
    have := List.append_inj' h2 rfl
    simp at this
    exact .inl ⟨l2', this.1, by simp [this.2]⟩

theorem lookupD_foldl_setk_const {β : Type} (l : List (String × String))
    (m0 : List (String × β)) (c d : β) (v : String)
    (h : v ∈ l.map Prod.fst ∨ lookupD m0 v d = c) :
    lookupD (l.foldl (fun m p => setk m p.1 c) m0) v d = c := by
  induction l generalizing m0 with
  | nil =>
    rcases h with h | h
    · cases h
    · exact h
  | cons p rest ih =>
    rw [List.foldl_cons]
    rcases h with h | h
    · rw [List.map_cons] at h
      rcases List.mem_cons.mp h with rfl | h2
      · by_cases hv : p.1 ∈ rest.map Prod.fst
        · exact ih _ (.inl hv)
        · exact ih _ (.inr (lookupD_setk_self _ _ _ _))
      · exact ih _ (.inl h2)
    · by_cases hv : v = p.1
      · subst hv
        exact ih _ (.inr (lookupD_setk_self _ _ _ _))
      · exact ih _ (.inr (by rwa [lookupD_setk_ne _ _ _ _ _ hv]))

theorem mem_keys_foldl_setk {β : Type} (l : List (String × String))
    (m0 : List (String × β)) (c : β) (v : String)
    (h : v ∈ l.map Prod.fst ∨ v ∈ m0.map Prod.fst) :
    v ∈ (l.foldl (fun m p => setk m p.1 c) m0).map Prod.fst := by
  induction l generalizing m0 with
  | nil =>
    rcases h with h | h
    · cases h
    · exact h
  | cons p rest ih =>
    rw [List.foldl_cons]
    rcases h with h | h
    · rw [List.map_cons] at h
      rcases List.mem_cons.mp h with rfl | h2
      · exact ih _ (.inr ((mem_keys_setk _ _ _ _).mpr (.inr rfl)))
      · exact ih _ (.inl h2)
    · exact ih _ (.inr ((mem_keys_setk _ _ _ _).mpr (.inl h)))

theorem mem_foldl_setk_elim {β : Type} (l : List (String × String))
    (m0 : List (String × β)) (c : β) (p : String × β)
    (h : p ∈ l.foldl (fun m q => setk m q.1 c) m0) :
    p.1 ∈ l.map Prod.fst ∨ p ∈ m0 := by
  induction l generalizing m0 with
  | nil => exact .inr h
  | cons q rest ih =>
    rw [List.foldl_cons] at h
    rcases ih _ h with h2 | h2
    · exact .inl (by simp [h2])
    · rcases mem_setk_elim h2 with h3 | h3
      · exact .inr h3
      · exact .inl (by simp [h3])

theorem foldl_max_init_le (l : List (String × ℚ)) (a : ℚ) :
    a ≤ l.foldl (fun x q => max x q.2) a := by
  induction l generalizing a with
  | nil => exact le_refl a
  | cons q rest ih => exact le_trans (le_max_left a q.2) (ih _)

theorem foldl_max_mem_le (l : List (String × ℚ)) (a : ℚ) (p : String × ℚ)
    (hp : p ∈ l) : p.2 ≤ l.foldl (fun x q => max x q.2) a := by
  induction l generalizing a with
  | nil => cases hp
  | cons q rest ih =>
    rcases List.mem_cons.mp hp with rfl | h2
    · exact le_trans (le_max_right a p.2) (foldl_max_init_le rest _)
    · exact ih _ h2

theorem le_maxValues (m : List (String × ℚ)) (p : String × ℚ) (hp : p ∈ m) :
    p.2 ≤ maxValues m := by
  unfold maxValues
  cases m with
  | nil => cases hp
  | cons q rest =>
    rcases List.mem_cons.mp hp with rfl | h2
    · exact foldl_max_init_le rest p.2
    · exact foldl_max_mem_le rest q.2 p h2

theorem lookupD_le_maxValues (m : List (String × ℚ)) (v : String)
    (hv : v ∈ m.map Prod.fst) : lookupD m v 0 ≤ maxValues m :=
  le_maxValues m (v, lookupD m v 0) (self_mem_of_mem_keys 0 hv)

theorem intoCount_singleton (e : String × ℚ) (v : String) :
    intoCount [e] v = if e.1 = v then 1 else 0 := by
  by_cases h : e.1 = v <;> simp [intoCount, h]

/-- The loop invariant of Kahn's algorithm between pops: `order` are the
popped nodes, `q` the queue; the in-degree copy records the original
in-degree minus the processed edges, a node is popped-or-queued exactly
when all its in-edges are processed, processed edges satisfy the `ve`
relaxation inequality, and no edge goes backwards in `order`. -/
structure TopoInv (g : AOEGraph) (q : List String)
    (idc : List (String × Int)) (ve : List (String × ℚ))
    (order : List String) : Prop where
  nd : (order ++ q).Nodup
  mem : ∀ x ∈ order ++ q, x ∈ nodeKeys g
  idc_eq : ∀ v, lookupD idc v 0 = inDeg0 g v - (cntFrom g order v : Int)
  enq_iff : ∀ v ∈ nodeKeys g,
      (v ∈ order ++ q ↔ inDeg0 g v = (cntFrom g order v : Int))
  ve_keys : ∀ v ∈ nodeKeys g, v ∈ ve.map Prod.fst
  ve_sub : ∀ p ∈ ve, p.1 ∈ nodeKeys g
  ve_edge : ∀ s ∈ order, ∀ e ∈ outOf g s,
      lookupD ve s 0 + e.2 ≤ lookupD ve e.1 0
  topo : ∀ l1 s l2, order = l1 ++ s :: l2 →
      ∀ e ∈ outOf g s, e.1 ∉ l1 ∧ e.1 ≠ s

/-- The invariant during `relaxEdges` for the popped node `u`, with
`done` the prefix of `u`'s out-edges already processed. -/
structure RelaxInv (g : AOEGraph) (u : String) (order : List String)
    (done : List (String × ℚ)) (q : List String)
    (idc : List (String × Int)) (ve : List (String × ℚ)) : Prop where
  nd : (order ++ u :: q).Nodup
  mem : ∀ x ∈ order ++ u :: q, x ∈ nodeKeys g
  idc_eq : ∀ v, lookupD idc v 0
      = inDeg0 g v - ((cntFrom g order v + intoCount done v : Nat) : Int)
  enq_iff : ∀ v ∈ nodeKeys g,
      (v ∈ order ++ u :: q ↔
        inDeg0 g v = ((cntFrom g order v + intoCount done v : Nat) : Int))
  ve_keys : ∀ v ∈ nodeKeys g, v ∈ ve.map Prod.fst
  ve_sub : ∀ p ∈ ve, p.1 ∈ nodeKeys g
  ve_old : ∀ s ∈ order, ∀ e ∈ outOf g s,
      lookupD ve s 0 + e.2 ≤ lookupD ve e.1 0
  ve_done : ∀ e ∈ done, lookupD ve u 0 + e.2 ≤ lookupD ve e.1 0
  topo_old : ∀ l1 s l2, order = l1 ++ s :: l2 →
      ∀ e ∈ outOf g s, e.1 ∉ l1 ∧ e.1 ≠ s
  topo_done : ∀ e ∈ done, e.1 ∉ order ∧ e.1 ≠ u

theorem relaxInv_step (g : AOEGraph) (hwf : WellFormed g) (u : String)
    (order : List String) (done : List (String × ℚ)) (q : List String)
    (idc : List (String × Int)) (ve : List (String × ℚ))
    (e : String × ℚ) (rest : List (String × ℚ))
    (hout : outOf g u = done ++ e :: rest)
    (inv : RelaxInv g u order done q idc ve) :
    RelaxInv g u order (done ++ [e])
      (if lookupD (setk idc e.1 (lookupD idc e.1 0 - 1)) e.1 0 = 0 then
        q ++ [e.1]
      else q)
      (setk idc e.1 (lookupD idc e.1 0 - 1))
      (setk ve e.1 (max (lookupD ve e.1 0) (lookupD ve u 0 + e.2))) := by
  have hndOrder : order.Nodup :=
    (List.sublist_append_left order (u :: q)).nodup inv.nd
  have hdisj := (List.nodup_append.mp inv.nd).2.2
  have hu : u ∉ order := fun hu' => hdisj hu' (List.Mem.head _)
  have hboundAll : ∀ v',
      cntFrom g order v' + intoCount (outOf g u) v' ≤ totalInto g v' :=
    processed_le_total g hwf.adj_nodup hndOrder hu
  have he_mem : e ∈ outOf g u := by
    rw [hout]
    exact List.mem_append_right _ (List.Mem.head _)
  have hv_nodes : e.1 ∈ nodeKeys g := target_mem_nodeKeys hwf he_mem
  have hcnt : cntFrom g order e.1 + intoCount done e.1 + 1
      ≤ totalInto g e.1 := by
    have hb := hboundAll e.1
    rw [hout, intoCount_append, intoCount_cons, if_pos rfl] at hb
    omega
  have hideg := hwf.indeg e.1
  have hv_notin : e.1 ∉ order ++ u :: q := by
    intro hin
    have h2 := (inv.enq_iff e.1 hv_nodes).mp hin
    omega
  have hvne_u : e.1 ≠ u := by
    intro hh
    exact hv_notin (hh ▸ List.mem_append_right _ (List.Mem.head _))
  have hvnotin_order : e.1 ∉ order := fun hh =>
    hv_notin (List.mem_append_left _ hh)
  have hvnotin_q : e.1 ∉ q := fun hh =>
    hv_notin (List.mem_append_right _ (List.Mem.tail _ hh))
  have hidc_self : lookupD (setk idc e.1 (lookupD idc e.1 0 - 1)) e.1 0
      = inDeg0 g e.1
        - ((cntFrom g order e.1 + intoCount done e.1 : Nat) : Int) - 1 := by
    rw [lookupD_setk_self, inv.idc_eq]
  have hshape : ∀ z : String,
      order ++ u :: (q ++ [z]) = (order ++ u :: q) ++ [z] := by
    intro z
    simp
  have hcount_new : ∀ v', intoCount (done ++ [e]) v'
      = intoCount done v' + (if e.1 = v' then 1 else 0) := by
    intro v'
    rw [intoCount_append, intoCount_singleton]
  have hve_ge : ∀ x, lookupD ve x 0
      ≤ lookupD (setk ve e.1 (max (lookupD ve e.1 0)
        (lookupD ve u 0 + e.2))) x 0 := by
    intro x
    by_cases hx : x = e.1
    · subst hx
      rw [lookupD_setk_self]
      exact le_max_left _ _
    · rw [lookupD_setk_ne _ _ _ _ _ hx]
  have hve_stable : ∀ x, x ≠ e.1 →
      lookupD (setk ve e.1 (max (lookupD ve e.1 0)
        (lookupD ve u 0 + e.2))) x 0 = lookupD ve x 0 := by
    intro x hx
    rw [lookupD_setk_ne _ _ _ _ _ hx]
  constructor
  case nd =>
    by_cases hq : lookupD (setk idc e.1 (lookupD idc e.1 0 - 1)) e.1 0 = 0
    · rw [if_pos hq, hshape]
      exact nodup_append_singleton inv.nd hv_notin
    · rw [if_neg hq]
      exact inv.nd
  case mem =>
    intro x hx
    by_cases hq : lookupD (setk idc e.1 (lookupD idc e.1 0 - 1)) e.1 0 = 0
    · rw [if_pos hq, hshape] at hx
      rcases List.mem_append.mp hx with hx1 | hx1
      · exact inv.mem x hx1
      · rw [List.mem_singleton.mp hx1]
        exact hv_nodes
    · rw [if_neg hq] at hx
      exact inv.mem x hx
  case idc_eq =>
    intro v'
    by_cases hv' : v' = e.1
    · subst hv'
      rw [hidc_self, hcount_new, if_pos rfl]
      push_cast
      ring
    · rw [lookupD_setk_ne _ _ _ _ _ hv', inv.idc_eq, hcount_new,
        if_neg (fun hh => hv' hh.symm)]
      push_cast
      ring
  case enq_iff =>
    intro v' hv'n
    by_cases hv' : v' = e.1
    · subst hv'
      rw [hcount_new, if_pos rfl]
      by_cases hq : lookupD (setk idc e.1 (lookupD idc e.1 0 - 1)) e.1 0 = 0
      · rw [if_pos hq]
        rw [hidc_self] at hq
        refine iff_of_true ?_ (by push_cast at hq ⊢; omega)
        exact List.mem_append_right _ (List.Mem.tail _
          (List.mem_append_right _ (List.Mem.head _)))
      · rw [if_neg hq]
        rw [hidc_self] at hq
        refine iff_of_false hv_notin (fun hr => hq ?_)
        push_cast at hr ⊢
        omega
    · have hne : ¬ e.1 = v' := fun hh => hv' hh.symm
      rw [hcount_new, if_neg hne, Nat.add_zero]
      by_cases hq : lookupD (setk idc e.1 (lookupD idc e.1 0 - 1)) e.1 0 = 0
      · rw [if_pos hq, hshape]
        rw [← inv.enq_iff v' hv'n]
        constructor
        · intro hx
          rcases List.mem_append.mp hx with hx1 | hx1
          · exact hx1
          · exact absurd (List.mem_singleton.mp hx1) hv'
        · exact fun hx => List.mem_append_left _ hx
      · rw [if_neg hq]
        exact inv.enq_iff v' hv'n
  case ve_keys =>
    intro v' hv'n
    exact (mem_keys_setk _ _ _ _).mpr (.inl (inv.ve_keys v' hv'n))
  case ve_sub =>
    intro p hp
    rcases mem_setk_elim hp with hp1 | hp1
    · exact inv.ve_sub p hp1
    · rw [hp1]
      exact hv_nodes
  case ve_old =>
    intro s hs e' he'
    rw [hve_stable s (fun hh => hvnotin_order (hh ▸ hs))]
    exact le_trans (inv.ve_old s hs e' he') (hve_ge e'.1)
  case ve_done =>
    intro e' he'
    rcases List.mem_append.mp he' with he1 | he1
    · rw [hve_stable u (fun hh => hvne_u hh.symm)]
      exact le_trans (inv.ve_done e' he1) (hve_ge e'.1)
    · rw [List.mem_singleton.mp he1]
      rw [hve_stable u (fun hh => hvne_u hh.symm), lookupD_setk_self]
      exact le_max_right _ _
  case topo_old => exact inv.topo_old
  case topo_done =>
    intro e' he'
    rcases List.mem_append.mp he' with he1 | he1
    · exact inv.topo_done e' he1
    · rw [List.mem_singleton.mp he1]
      exact ⟨hvnotin_order, hvne_u⟩

theorem relaxInv_run (g : AOEGraph) (hwf : WellFormed g) (u : String)
    (order : List String) :
    ∀ (rest done : List (String × ℚ)) (q : List String)
      (idc : List (String × Int)) (ve : List (String × ℚ)),
    outOf g u = done ++ rest → RelaxInv g u order done q idc ve →
    RelaxInv g u order (outOf g u)
      (relaxEdges u rest (ve, idc, q)).2.2
      (relaxEdges u rest (ve, idc, q)).2.1
      (relaxEdges u rest (ve, idc, q)).1 := by
  intro rest
  induction rest with
  | nil =>
    intro done q idc ve hout inv
    rw [show relaxEdges u [] (ve, idc, q) = (ve, idc, q) from rfl]
    rw [show outOf g u = done by rw [hout]; simp]
    exact inv
  | cons e rest ih =>
    intro done q idc ve hout inv
    have step := relaxInv_step g hwf u order done q idc ve e rest hout inv
    have hout2 : outOf g u = (done ++ [e]) ++ rest := by
      rw [hout]
      simp
    have hrec := ih (done ++ [e]) _ _ _ hout2 step
    rw [show relaxEdges u (e :: rest) (ve, idc, q)
        = relaxEdges u rest
          (setk ve e.1 (max (lookupD ve e.1 0) (lookupD ve u 0 + e.2)),
           setk idc e.1 (lookupD idc e.1 0 - 1),
           if lookupD (setk idc e.1 (lookupD idc e.1 0 - 1)) e.1 0 = 0 then
             q ++ [e.1]
           else q) from rfl]
    exact hrec

theorem topoInv_pop (g : AOEGraph) (u : String) (qs order : List String)
    (idc : List (String × Int)) (ve : List (String × ℚ))
    (inv : TopoInv g (u :: qs) idc ve order) :
    RelaxInv g u order [] qs idc ve where
  nd := inv.nd
  mem := inv.mem
  idc_eq := fun v => by simpa [intoCount] using inv.idc_eq v
  enq_iff := fun v hv => by simpa [intoCount] using inv.enq_iff v hv
  ve_keys := inv.ve_keys
  ve_sub := inv.ve_sub
  ve_old := inv.ve_edge
  ve_done := fun e he => absurd he (List.not_mem_nil e)
  topo_old := inv.topo
  topo_done := fun e he => absurd he (List.not_mem_nil e)

theorem relaxInv_to_topoInv (g : AOEGraph) (u : String)
    (order q : List String) (idc : List (String × Int))
    (ve : List (String × ℚ))
    (inv : RelaxInv g u order (outOf g u) q idc ve) :
    TopoInv g q idc ve (order ++ [u]) where
  nd := by
    have h := inv.nd
    rwa [show order ++ u :: q = (order ++ [u]) ++ q by simp] at h
  mem := fun x hx => inv.mem x (by simpa using hx)
  idc_eq := fun v => by
    rw [inv.idc_eq v, cntFrom_append, cntFrom_singleton]
  enq_iff := fun v hv => by
    have h := inv.enq_iff v hv
    rw [show order ++ u :: q = (order ++ [u]) ++ q by simp] at h
    rw [h, cntFrom_append, cntFrom_singleton]
  ve_keys := inv.ve_keys
  ve_sub := inv.ve_sub
  ve_edge := fun s hs e he => by
    rcases List.mem_append.mp hs with hs1 | hs1
    · exact inv.ve_old s hs1 e he
    · have hsu : s = u := List.mem_singleton.mp hs1
      subst hsu
      exact inv.ve_done e he
  topo := fun l1 s l2 hsplit e he => by
    rcases append_singleton_split order l1 l2 s u hsplit
      with ⟨l2', ho, hl2⟩ | ⟨h1, h2, h3⟩
    · exact inv.topo_old l1 s l2' ho e he
    · subst h1
      subst h2
      exact inv.topo_done e he

theorem topoLoop_inv (g : AOEGraph) (hwf : WellFormed g) :
    ∀ (fuel : Nat) (q : List String) (idc : List (String × Int))
      (ve : List (String × ℚ)) (order : List String),
    TopoInv g q idc ve order →
    ∃ q2 idc2, TopoInv g q2 idc2
      (topoLoop g fuel q idc ve order).1
      (topoLoop g fuel q idc ve order).2 := by
  intro fuel
  induction fuel with
  | zero => exact fun q idc ve order inv => ⟨q, idc, inv⟩
  | succ fuel ih =>
    intro q idc ve order inv
    cases q with
    | nil => exact ⟨[], idc, inv⟩
    | cons u qs =>
      have pop := topoInv_pop g u qs order idc ve inv
      have run := relaxInv_run g hwf u order (outOf g u) [] qs idc ve
        (by simp) pop
      have next := relaxInv_to_topoInv g u order _ _ _ run
      have hrec := ih _ _ _ _ next
      rw [show topoLoop g (fuel + 1) (u :: qs) idc ve order
          = topoLoop g fuel (relaxEdges u (outOf g u) (ve, idc, qs)).2.2
              (relaxEdges u (outOf g u) (ve, idc, qs)).2.1
              (relaxEdges u (outOf g u) (ve, idc, qs)).1
              (order ++ [u]) from rfl]
      exact hrec

theorem topoInv_init (g : AOEGraph) (hwf : WellFormed g) :
    TopoInv g
      ((g.nodes.map Prod.fst).filter (fun n => lookupD g.in_degree n 0 = 0))
      g.in_degree (g.nodes.foldl (fun m p => setk m p.1 0) g.ve) [] where
  nd := by simpa using hwf.nodes_nodup.filter _
  mem := fun x hx => by
    rw [List.nil_append] at hx
    exact List.mem_of_mem_filter hx
  idc_eq := fun v => by simp [inDeg0, cntFrom]
  enq_iff := fun v hv => by
    simp only [List.nil_append, List.mem_filter]
    constructor
    · intro h
      have h2 := h.2
      simp only [decide_eq_true_eq] at h2
      simp [inDeg0, cntFrom, h2]
    · intro h
      refine ⟨hv, ?_⟩
      simp only [cntFrom, List.map_nil, List.sum_nil, Nat.cast_zero,
        inDeg0] at h
      simp [h]
  ve_keys := fun v hv => mem_keys_foldl_setk _ _ _ _ (.inl hv)
  ve_sub := fun p hp => by
    rcases mem_foldl_setk_elim _ _ _ _ hp with h | h
    · exact h
    · rw [hwf.ve_empty] at h
      cases h
  ve_edge := fun s hs => absurd hs (List.not_mem_nil s)
  topo := fun l1 s l2 h => by simp at h

theorem topologicalSort_facts (g : AOEGraph) (hwf : WellFormed g)
    (hlen : (g.topologicalSort).2.length = g.nodes.length) :
    (g.topologicalSort).2.Nodup
    ∧ (∀ v ∈ nodeKeys g, v ∈ (g.topologicalSort).2)
    ∧ (∀ x ∈ (g.topologicalSort).2, x ∈ nodeKeys g)
    ∧ (∀ v ∈ nodeKeys g, v ∈ (g.topologicalSort).1.ve.map Prod.fst)
    ∧ (∀ p ∈ (g.topologicalSort).1.ve, p.1 ∈ nodeKeys g)
    ∧ (∀ u, ∀ e ∈ outOf g u,
        lookupD (g.topologicalSort).1.ve u 0 + e.2
          ≤ lookupD (g.topologicalSort).1.ve e.1 0)
    ∧ (∀ l1 s l2, (g.topologicalSort).2 = l1 ++ s :: l2 →
        ∀ e ∈ outOf g s, e.1 ∈ l2) := by
  obtain ⟨q2, idc2, inv⟩ := topoLoop_inv g hwf
    (g.nodes.length + totalAdjLen g + 1)
    ((g.nodes.map Prod.fst).filter (fun n => lookupD g.in_degree n 0 = 0))
    g.in_degree (g.nodes.foldl (fun m p => setk m p.1 0) g.ve) []
    (topoInv_init g hwf)
  have hve : (g.topologicalSort).1.ve
      = (topoLoop g (g.nodes.length + totalAdjLen g + 1)
          ((g.nodes.map Prod.fst).filter
            (fun n => lookupD g.in_degree n 0 = 0))
          g.in_degree (g.nodes.foldl (fun m p => setk m p.1 0) g.ve) []).1 :=
    rfl
  have hord : (g.topologicalSort).2
      = (topoLoop g (g.nodes.length + totalAdjLen g + 1)
          ((g.nodes.map Prod.fst).filter
            (fun n => lookupD g.in_degree n 0 = 0))
          g.in_degree (g.nodes.foldl (fun m p => setk m p.1 0) g.ve) []).2 :=
    rfl
  rw [hord] at hlen
  rw [hve, hord]
  have ndOrder := (List.sublist_append_left _ q2).nodup inv.nd
  have hsub : ∀ x ∈ (topoLoop g (g.nodes.length + totalAdjLen g + 1)
      ((g.nodes.map Prod.fst).filter (fun n => lookupD g.in_degree n 0 = 0))
      g.in_degree (g.nodes.foldl (fun m p => setk m p.1 0) g.ve) []).2,
      x ∈ nodeKeys g :=
    fun x hx => inv.mem x (List.mem_append_left _ hx)
  have hperm := (ndOrder.subperm hsub).perm_of_length_le (by
    have : (nodeKeys g).length = g.nodes.length := by
      simp [nodeKeys]
    rw [this, hlen])
  have hcomplete : ∀ v ∈ nodeKeys g,
      v ∈ (topoLoop g (g.nodes.length + totalAdjLen g + 1)
        ((g.nodes.map Prod.fst).filter
          (fun n => lookupD g.in_degree n 0 = 0))
        g.in_degree (g.nodes.foldl (fun m p => setk m p.1 0) g.ve) []).2 :=
    fun v hv => hperm.mem_iff.mpr hv
  refine ⟨ndOrder, hcomplete, hsub, inv.ve_keys, inv.ve_sub, ?_, ?_⟩
  · intro u e he
    have hne : outOf g u ≠ [] := fun hh => by
      rw [hh] at he
      cases he
    exact inv.ve_edge u (hcomplete u (source_mem_nodeKeys hwf hne)) e he
  · intro l1 s l2 hsplit e he
    have h1 := inv.topo l1 s l2 hsplit e he
    have h2 : e.1 ∈ l1 ++ s :: l2 := by
      rw [← hsplit]
      exact hcomplete e.1 (target_mem_nodeKeys hwf he)
    rcases List.mem_append.mp h2 with h3 | h3
    · exact absurd h3 h1.1
    · rcases List.mem_cons.mp h3 with h4 | h4
      · exact absurd h4 h1.2
      · exact h4

/-! ## The backward pass establishes `ve ≤ vl` -/

theorem backStep_lookup_ne (g : AOEGraph) (m : List (String × ℚ))
    (u v : String) (hv : v ≠ u) :
    lookupD (backStep g m u) v 0 = lookupD m v 0 := by
  unfold backStep
  generalize outOf g u = outs
  induction outs generalizing m with
  | nil => rfl
  | cons e rest ih =>
    rw [List.foldl_cons, ih]
    rw [lookupD_setk_ne _ _ _ _ _ hv]

theorem backFold_lb (u : String) (outs : List (String × ℚ)) (c : ℚ) :
    ∀ m, c ≤ lookupD m u 0 → (∀ e ∈ outs, c ≤ lookupD m e.1 0 - e.2) →
    (∀ e ∈ outs, e.1 ≠ u) →
    c ≤ lookupD (outs.foldl
      (fun m2 e => setk m2 u (min (lookupD m2 u 0) (lookupD m2 e.1 0 - e.2)))
      m) u 0 := by
  induction outs with
  | nil => exact fun m h1 _ _ => h1
  | cons e rest ih =>
    intro m h1 h2 h3
    rw [List.foldl_cons]
    apply ih
    · rw [lookupD_setk_self]
      exact le_min h1 (h2 e (List.Mem.head _))
    · intro e' he'
      rw [lookupD_setk_ne _ _ _ _ _ (h3 e' (List.Mem.tail _ he'))]
      exact h2 e' (List.Mem.tail _ he')
    · exact fun e' he' => h3 e' (List.Mem.tail _ he')

theorem backStep_lb (g : AOEGraph) (m : List (String × ℚ)) (u : String)
    (c : ℚ) (h1 : c ≤ lookupD m u 0)
    (h2 : ∀ e ∈ outOf g u, c ≤ lookupD m e.1 0 - e.2)
    (h3 : ∀ e ∈ outOf g u, e.1 ≠ u) :
    c ≤ lookupD (backStep g m u) u 0 :=
  backFold_lb u (outOf g u) c m h1 h2 h3

theorem backward_aux (g : AOEGraph) (ve : List (String × ℚ)) (mt : ℚ)
    (hforward : ∀ u, ∀ e ∈ outOf g u,
      lookupD ve u 0 + e.2 ≤ lookupD ve e.1 0) :
    ∀ (rest pre : List String) (m : List (String × ℚ)),
    (pre ++ rest).Nodup →
    (∀ l1 u l2, pre ++ rest = l1 ++ u :: l2 → ∀ e ∈ outOf g u, e.1 ∈ l1) →
    (∀ v ∈ rest, lookupD m v 0 = mt) →
    (∀ v ∈ pre, lookupD ve v 0 ≤ lookupD m v 0) →
    (∀ v ∈ rest, lookupD ve v 0 ≤ mt) →
    ∀ v ∈ pre ++ rest,
      lookupD ve v 0 ≤ lookupD (rest.foldl (backStep g) m) v 0 := by
  intro rest
  induction rest with
  | nil =>
    intro pre m _ _ _ hpre _ v hv
    rw [List.append_nil] at hv
    exact hpre v hv
  | cons u rest ih =>
    intro pre m hnd htopo hm hpre hmax v hv
    have hshape : pre ++ u :: rest = (pre ++ [u]) ++ rest := by simp
    have hu_not_pre : u ∉ pre := by
      intro hh
      exact (List.nodup_append.mp hnd).2.2 hh (List.Mem.head _)
    have hu_not_rest : u ∉ rest := by
      have h2 := ((List.sublist_append_right pre (u :: rest)).nodup hnd)
      exact (List.nodup_cons.mp h2).1
    have htargets : ∀ e ∈ outOf g u, e.1 ∈ pre :=
      htopo pre u rest rfl
    have hm' : ∀ v' ∈ rest, lookupD (backStep g m u) v' 0 = mt := by
      intro v' hv'
      rw [backStep_lookup_ne g m u v' (fun hh => hu_not_rest (hh ▸ hv'))]
      exact hm v' (List.Mem.tail _ hv')
    have hpre' : ∀ v' ∈ pre ++ [u],
        lookupD ve v' 0 ≤ lookupD (backStep g m u) v' 0 := by
      intro v' hv'
      rcases List.mem_append.mp hv' with hv1 | hv1
      · rw [backStep_lookup_ne g m u v' (fun hh => hu_not_pre (hh ▸ hv1))]
        exact hpre v' hv1
      · rw [List.mem_singleton.mp hv1]
        apply backStep_lb
        · rw [hm u (List.Mem.head _)]
          exact hmax u (List.Mem.head _)
        · intro e he
          have h1 := hforward u e he
          have h2 := hpre e.1 (htargets e he)
          linarith
        · exact fun e he hh => hu_not_pre (hh ▸ htargets e he)
    rw [List.foldl_cons]
    have := ih (pre ++ [u]) (backStep g m u)
      (by rwa [hshape] at hnd)
      (by
        intro l1 u' l2 hsplit e he
        exact htopo l1 u' l2 (by rw [hshape, hsplit]) e he)
      hm' hpre'
      (fun v' hv' => hmax v' (List.Mem.tail _ hv'))
      v (by rwa [hshape] at hv)
    simpa using this

theorem calculateCriticalPath_ok_parts (g : AOEGraph)
    (ce : List (String × String × ℚ)) (mt : ℚ)
    (hrun : g.calculateCriticalPath.2 = some (ce, mt)) :
    (g.topologicalSort).2.length = g.nodes.length
    ∧ mt = maxValues (g.topologicalSort).1.ve
    ∧ g.calculateCriticalPath.1.ve = (g.topologicalSort).1.ve
    ∧ g.calculateCriticalPath.1.vl
        = backwardPass (g.topologicalSort).1 (g.topologicalSort).2
            (g.nodes.foldl
              (fun m p => setk m p.1 (maxValues (g.topologicalSort).1.ve))
              (g.topologicalSort).1.vl)
    ∧ ce = extractCritical (g.topologicalSort).1 (g.topologicalSort).1.ve
        g.calculateCriticalPath.1.vl := by
  simp only [AOEGraph.calculateCriticalPath] at hrun ⊢
  by_cases hc : (g.topologicalSort).2.length
      = (g.topologicalSort).1.nodes.length
  · rw [if_neg (by simpa using hc)] at hrun ⊢
    simp only [Option.some.injEq, Prod.mk.injEq] at hrun
    obtain ⟨rfl, rfl⟩ := hrun
    exact ⟨hc, rfl, rfl, rfl, rfl⟩
  · rw [if_pos (by simpa using hc)] at hrun
    simp at hrun

theorem criticalPath_core (g : AOEGraph) (hwf : WellFormed g)
    (ce : List (String × String × ℚ)) (mt : ℚ)
    (hrun : g.calculateCriticalPath.2 = some (ce, mt)) :
    (∀ v ∈ nodeKeys g,
      lookupD g.calculateCriticalPath.1.ve v 0
        ≤ lookupD g.calculateCriticalPath.1.vl v 0)
    ∧ (∀ u, ∀ e ∈ outOf g u,
      lookupD g.calculateCriticalPath.1.ve u 0 + e.2
        ≤ lookupD g.calculateCriticalPath.1.ve e.1 0) := by
  obtain ⟨hlen, hmt, hve, hvl, hce⟩ :=
    calculateCriticalPath_ok_parts g ce mt hrun
  obtain ⟨hnd, hcomp, hsub, hvek, hves, hfw, htp⟩ :=
    topologicalSort_facts g hwf hlen
  have hmax : ∀ v ∈ (g.topologicalSort).2,
      lookupD (g.topologicalSort).1.ve v 0
        ≤ maxValues (g.topologicalSort).1.ve :=
    fun v hv => lookupD_le_maxValues _ v (hvek v (hsub v hv))
  have hvl0 : ∀ v ∈ (g.topologicalSort).2,
      lookupD (g.nodes.foldl
        (fun m p => setk m p.1 (maxValues (g.topologicalSort).1.ve))
        (g.topologicalSort).1.vl) v 0
      = maxValues (g.topologicalSort).1.ve := by
    intro v hv
    exact lookupD_foldl_setk_const _ _ _ _ v (.inl (hsub v hv))
  have hback := backward_aux (g.topologicalSort).1 (g.topologicalSort).1.ve
    (maxValues (g.topologicalSort).1.ve)
    (fun u e he => hfw u e he)
    (g.topologicalSort).2.reverse []
    (g.nodes.foldl
      (fun m p => setk m p.1 (maxValues (g.topologicalSort).1.ve))
      (g.topologicalSort).1.vl)
    (by simpa using hnd)
    (by
      intro l1 u l2 hsplit e he
      rw [List.nil_append] at hsplit
      have hordr : (g.topologicalSort).2 = l2.reverse ++ u :: l1.reverse := by
        have h2 := congrArg List.reverse hsplit
        rw [List.reverse_reverse] at h2
        rw [h2]
        simp
      have h3 := htp l2.reverse u l1.reverse hordr e he
      simpa using h3)
    (fun v hv => hvl0 v (by simpa using hv))
    (fun v hv => absurd hv (List.not_mem_nil v))
    (fun v hv => hmax v (by simpa using hv))
  constructor
  · intro v hv
    rw [hve, hvl]
    have h1 := hback v (by simpa using hcomp v hv)
    simpa [backwardPass] using h1
  · intro u e he
    rw [hve]
    exact hfw u e he

theorem mem_foldl_append {α β : Type} (f : α → List β) (l : List α)
    (init : List β) (x : β)
    (h : x ∈ l.foldl (fun acc a => acc ++ f a) init) :
    x ∈ init ∨ ∃ a ∈ l, x ∈ f a := by
  induction l generalizing init with
  | nil => exact .inl h
  | cons a rest ih =>
    rw [List.foldl_cons] at h
    rcases ih _ h with h1 | ⟨b, hb, h1⟩
    · rcases List.mem_append.mp h1 with h2 | h2
      · exact .inl h2
      · exact .inr ⟨a, List.Mem.head _, h2⟩
    · exact .inr ⟨b, List.Mem.tail _ hb, h1⟩

theorem extractCritical_mem_elim (g' : AOEGraph)
    (ve vl : List (String × ℚ)) (u v : String) (w : ℚ)
    (h : (u, v, w) ∈ extractCritical g' ve vl) :
    (v, w) ∈ outOf g' u ∧ lookupD ve u 0 = lookupD vl v 0 - w := by
  unfold extractCritical at h
  rcases mem_foldl_append _ _ _ _ h with h1 | ⟨p, hp, h1⟩
  · cases h1
  · rcases List.mem_filterMap.mp h1 with ⟨e, he, heq⟩
    by_cases hcond : lookupD ve p.1 0 = lookupD vl e.1 0 - e.2
    · rw [if_pos hcond] at heq
      have h2 : p.1 = u ∧ e.1 = v ∧ e.2 = w := by
        simpa [Prod.ext_iff] using heq
      obtain ⟨h3, h4, h5⟩ := h2
      subst h3
      refine ⟨?_, ?_⟩
      · rw [show (v, w) = e from by rw [← h4, ← h5]]
        exact he
      · rw [← h4, ← h5]
        exact hcond
    · rw [if_neg hcond] at heq
      cases heq

/-- C5: for every well-formed graph with non-negative edge durations,
after `calculate_critical_path` completes (returns a critical-edge list
rather than the cycle result), every node satisfies `ve[node] ≤ vl[node]`. -/
theorem c5_ve_le_vl (g : AOEGraph) (hwf : WellFormed g)
    (hnn : ∀ p ∈ g.adj, ∀ e ∈ p.2, (0 : ℚ) ≤ e.2)
    (ce : List (String × String × ℚ)) (mt : ℚ)
    (hrun : g.calculateCriticalPath.2 = some (ce, mt)) :
    ∀ v ∈ nodeKeys g,
      lookupD g.calculateCriticalPath.1.ve v 0
        ≤ lookupD g.calculateCriticalPath.1.vl v 0 :=
  (criticalPath_core g hwf ce mt hrun).1

/-- C4: for every well-formed graph, after `calculate_critical_path`
completes, every critical edge `(u, v, w)` it reports satisfies the
extraction criterion `ve[u] = vl[v] - w` and the consequence
`ve[u] + w = ve[v]`. -/
theorem c4_critical_edges_zero_slack (g : AOEGraph) (hwf : WellFormed g)
    (ce : List (String × String × ℚ)) (mt : ℚ)
    (hrun : g.calculateCriticalPath.2 = some (ce, mt)) :
    ∀ u v w, (u, v, w) ∈ ce →
      lookupD g.calculateCriticalPath.1.ve u 0
          = lookupD g.calculateCriticalPath.1.vl v 0 - w
      ∧ lookupD g.calculateCriticalPath.1.ve u 0 + w
          = lookupD g.calculateCriticalPath.1.ve v 0 := by
  intro u v w hm
  obtain ⟨hlen, hmt, hve, hvl, hce⟩ :=
    calculateCriticalPath_ok_parts g ce mt hrun
  obtain ⟨hle, hfw⟩ := criticalPath_core g hwf ce mt hrun
  rw [hce] at hm
  obtain ⟨hedge, hcrit⟩ := extractCritical_mem_elim _ _ _ u v w hm
  have hedge' : (v, w) ∈ outOf g u := hedge
  have hcrit' : lookupD g.calculateCriticalPath.1.ve u 0
      = lookupD g.calculateCriticalPath.1.vl v 0 - w := by
    rw [hve]
    exact hcrit
  refine ⟨hcrit', ?_⟩
  have h1 : lookupD g.calculateCriticalPath.1.ve u 0 + w
      ≤ lookupD g.calculateCriticalPath.1.ve v 0 := hfw u (v, w) hedge'
  have h2 : lookupD g.calculateCriticalPath.1.ve v 0
      ≤ lookupD g.calculateCriticalPath.1.vl v 0 :=
    hle v (target_mem_nodeKeys hwf hedge')
  linarith [hcrit']

/-- All adjacency targets, for the finite in-degree consistency check. -/
def targetsList (g : AOEGraph) : List String :=
  (g.adj.map (fun p => p.2.map Prod.fst)).join

theorem indeg_of_finite_check (g : AOEGraph)
    (h : ∀ v ∈ g.in_degree.map Prod.fst ++ targetsList g,
      inDeg0 g v = (totalInto g v : Int)) :
    ∀ v, inDeg0 g v = (totalInto g v : Int) := by
  intro v
  by_cases hv : v ∈ g.in_degree.map Prod.fst ++ targetsList g
  · exact h v hv
  · have hv1 : v ∉ g.in_degree.map Prod.fst :=
      fun hh => hv (List.mem_append_left _ hh)
    have hv2 : v ∉ targetsList g :=
      fun hh => hv (List.mem_append_right _ hh)
    have h1 : inDeg0 g v = 0 := by
      simp [inDeg0, lookupD, (alookup_eq_none_iff _ _).mpr hv1]
    have h2 : totalInto g v = 0 := by
      unfold totalInto
      apply List.sum_eq_zero
      intro x hx
      rcases List.mem_map.mp hx with ⟨p, hp, rfl⟩
      unfold intoCount
      rw [List.length_eq_zero]
      rw [List.filter_eq_nil]
      intro q hq hqv
      have hq1 : q.1 = v := of_decide_eq_true hqv
      apply hv2
      unfold targetsList
      rw [List.mem_join]
      exact ⟨p.2.map Prod.fst, List.mem_map.mpr ⟨p, hp, rfl⟩,
        hq1 ▸ List.mem_map.mpr ⟨q, hq, rfl⟩⟩
    rw [h1, h2]
    rfl

/-- A concrete two-node, one-edge well-formed graph witnessing C4 and C5. -/
def gW : AOEGraph :=
  (((AOEGraph.init (some "P") (some "p")).addNode "A" "a").addNode
    "B" "b").addEdge "A" "B" 2

theorem gW_wf : WellFormed gW where
  nodes_nodup := by decide
  adj_nodup := by decide
  adj_src := by decide
  adj_tgt := by decide
  indeg := indeg_of_finite_check gW (by decide)
  ve_empty := rfl
  vl_empty := rfl

theorem gW_run : gW.calculateCriticalPath.2 = some ([("A", "B", 2)], 2) := by
  have hts : gW.topologicalSort =
      ({ gW with ve := [("A", 0), ("B", max 0 (0 + 2))] }, ["A", "B"]) := rfl
  have hn : gW.nodes = [("A", "a"), ("B", "b")] := rfl
  have ha : gW.adj = [("A", [("B", 2)])] := rfl
  have hv : gW.vl = [] := rfl
  norm_num +decide [AOEGraph.calculateCriticalPath, hts, hn, ha, hv, maxValues,
    backwardPass, backStep, extractCritical, outOf, lookupD, alookup, setk,
    List.filterMap_cons, List.filterMap_nil, Option.getD]

/-- Witness for C5 on `gW`. -/
theorem c5_witness :
    (∀ p ∈ gW.adj, ∀ e ∈ p.2, (0 : ℚ) ≤ e.2)
    ∧ lookupD gW.calculateCriticalPath.1.ve "B" 0
        ≤ lookupD gW.calculateCriticalPath.1.vl "B" 0 := by
  refine ⟨by decide, ?_⟩
  have h := c5_ve_le_vl gW gW_wf (by decide) [("A", "B", 2)] 2 gW_run
  exact h "B" (by decide)

/-- Witness for C4 on `gW`: the reported critical edge `A → B` has zero
slack. -/
theorem c4_witness :
    lookupD gW.calculateCriticalPath.1.ve "A" 0
        = lookupD gW.calculateCriticalPath.1.vl "B" 0 - 2
    ∧ lookupD gW.calculateCriticalPath.1.ve "A" 0 + 2
        = lookupD gW.calculateCriticalPath.1.ve "B" 0 := by
  have h := c4_critical_edges_zero_slack gW gW_wf [("A", "B", 2)] 2
    gW_run "A" "B" 2 (List.mem_singleton.mpr rfl)
  exact h

end AoeSpec
